import Mathlib

/-!
Shallow embedding of `opengl/libs/EGL/MultifileBlobCache.h` (AOSP
`platform_frameworks_native`): a persistent, size-bounded key/value blob
cache with an in-memory hot cache, LRU eviction, and a deferred
write-back pipeline.

The repository ships only the header: the data structures
(`MultifileHeader`, `MultifileEntryStats`, `MultifileHotCache`,
`TaskCommand`, `DeferredTask` with its inline member functions) and the
declarations of `MultifileBlobCache`'s members.  The structures and the
fully inline `DeferredTask` are translated from the source; the method
bodies of `MultifileBlobCache` (`set`, `get`, `finish`, `trimCache`,
`trackEntry`, `removeEntry`, `applyLRU`, ...) are absent from the source
and are modelled from the specification, as marked on each definition.

Machine conventions: byte values, sizes, hashes and times are `Nat`;
buffers are `List Nat`; the worker thread is embedded sequentially: the
task queue is explicit state and draining it processes tasks in FIFO
order, which is the drained (quiescent) semantics the spec ascribes to
`finish`/`waitForWorkComplete`.
-/

set_option autoImplicit false

namespace MultifileBlobCache

/-- Source `struct MultifileHeader`: the fixed on-disk header
`{keySize, valueSize}` that prefixes every entry file. -/
structure MultifileHeader where
  keySize : Nat
  valueSize : Nat
deriving DecidableEq, Repr

/-- Byte size of the serialized `MultifileHeader` (two `EGLsizeiANDROID`
fields); the concrete constant stands for `sizeof(MultifileHeader)`. -/
def multifileHeaderSize : Nat := 8

/-- Source `struct MultifileEntryStats`: the per-entry bookkeeping
record kept in `mEntryStats`.  Translated field-for-field from the
source; it has exactly the three fields `valueSize`, `fileSize`,
`accessTime` (no key size). -/
structure MultifileEntryStats where
  valueSize : Nat
  fileSize : Nat
  accessTime : Nat
deriving DecidableEq, Repr

/-- Contents of one on-disk entry file: header, then `keySize` raw key
bytes, then `valueSize` raw value bytes (spec section 4.3). -/
structure EntryFile where
  header : MultifileHeader
  keyBytes : List Nat
  valueBytes : List Nat
deriving DecidableEq, Repr

/-- Source `struct MultifileHotCache`: an open fd, the in-memory buffer
holding the full header+key+value contents, and its byte size. -/
structure MultifileHotCache where
  entryFd : Nat
  entryBuffer : EntryFile
  entrySize : Nat
deriving DecidableEq, Repr

/-- Source `enum class TaskCommand`. -/
inductive TaskCommand where
  | Invalid
  | WriteToDisk
  | Exit
deriving DecidableEq, Repr

/-- Source `class DeferredTask`.  The C++ members `mEntryHash`,
`mFullPath`, `mBuffer`, `mBufferSize` are raw members the constructor
leaves unset; unset members are modelled as `Option` fields defaulting
to `none` (for `mBufferSize`, a `size_t`, the indeterminate default is
modelled as `0`).  File paths are modelled by the entry hash the file
name is derived from. -/
structure DeferredTask where
  mCommand : TaskCommand
  mEntryHash : Option Nat := none
  mFullPath : Option Nat := none
  mBuffer : Option EntryFile := none
  mBufferSize : Nat := 0
deriving DecidableEq, Repr

/-- Source `DeferredTask::DeferredTask(TaskCommand command)`: assigns
only `mCommand`. -/
def DeferredTask.ofCommand (command : TaskCommand) : DeferredTask :=
  { mCommand := command }

/-- Source `DeferredTask::initWriteToDisk`: assigns `mCommand`,
`mFullPath`, `mBuffer` and `mBufferSize` — and nothing else. -/
def DeferredTask.initWriteToDisk (t : DeferredTask) (fullPath : Nat)
    (buffer : EntryFile) (bufferSize : Nat) : DeferredTask :=
  { t with
    mCommand := TaskCommand.WriteToDisk
    mFullPath := some fullPath
    mBuffer := some buffer
    mBufferSize := bufferSize }

/-- Source `DeferredTask::getTaskCommand`. -/
def DeferredTask.getTaskCommand (t : DeferredTask) : TaskCommand := t.mCommand

/-- Source `DeferredTask::getEntryHash`: returns the raw `mEntryHash`
member. -/
def DeferredTask.getEntryHash (t : DeferredTask) : Option Nat := t.mEntryHash

/-- Source `DeferredTask::getFullPath`. -/
def DeferredTask.getFullPath (t : DeferredTask) : Option Nat := t.mFullPath

/-- Source `DeferredTask::getBuffer`. -/
def DeferredTask.getBuffer (t : DeferredTask) : Option EntryFile := t.mBuffer

/-- Source `DeferredTask::getBufferSize`. -/
def DeferredTask.getBufferSize (t : DeferredTask) : Nat := t.mBufferSize

/-! ### Association-list helpers

The C++ containers `std::unordered_set`, `std::unordered_map`,
`std::multimap` and the file system directory are modelled as lists of
key/value pairs; these helpers mirror their operations. -/

/-- Lookup of the first binding of key `k` (hash-map `find`). -/
def alookup {α : Type} : List (Nat × α) → Nat → Option α
  | [], _ => none
  | p :: rest, k => if p.1 = k then some p.2 else alookup rest k

/-- Replacement of the binding of `k` (hash-map `operator[]=`): replaces
the first binding in place or appends a fresh binding. -/
def aupdate {α : Type} : List (Nat × α) → Nat → α → List (Nat × α)
  | [], k, v => [(k, v)]
  | p :: rest, k, v => if p.1 = k then (k, v) :: rest else p :: aupdate rest k v

/-- Removal of every binding of `k` (hash-map `erase`). -/
def eraseKey {α : Type} : List (Nat × α) → Nat → List (Nat × α)
  | [], _ => []
  | p :: rest, k => if p.1 = k then eraseKey rest k else p :: eraseKey rest k

/-- Removal of one element from a set of hashes (`unordered_set::erase`);
removes every occurrence so a set stays a set. -/
def removeAll : List Nat → Nat → List Nat
  | [], _ => []
  | x :: rest, k => if x = k then removeAll rest k else x :: removeAll rest k

/-- Removal of the first occurrence of one exact pair, as
`multimap::erase(iterator)` on the iterator found for that pair. -/
def erasePair : List (Nat × EntryFile) → Nat × EntryFile → List (Nat × EntryFile)
  | [], _ => []
  | p :: rest, q => if p = q then rest else p :: erasePair rest q

/-- Keys of an association list. -/
def akeys {α : Type} (l : List (Nat × α)) : List Nat := l.map Prod.fst

/-- Sum of the `fileSize` fields of a stats table. -/
def sumFS (l : List (Nat × MultifileEntryStats)) : Nat :=
  (l.map (fun p => p.2.fileSize)).sum

/-! ### Cache state -/

/-- Modelled from the spec: the mutable state of a `MultifileBlobCache`
object, mirroring the header's member list.  The file system under
`mMultifileDirName` is part of the state (`mDisk`), keyed by the hash
the file name is derived from; `mClock` models the wall clock read for
access times, advanced on every read/write so later accesses get
strictly later stamps. -/
structure CacheState where
  hashOf : List Nat → Nat
  mInitialized : Bool
  mMultifileDirName : String
  mEntries : List Nat
  mEntryStats : List (Nat × MultifileEntryStats)
  mHotCache : List (Nat × MultifileHotCache)
  mMaxKeySize : Nat
  mMaxValueSize : Nat
  mMaxTotalSize : Nat
  mTotalCacheSize : Nat
  mHotCacheLimit : Nat
  mHotCacheEntryLimit : Nat
  mHotCacheSize : Nat
  mDeferredWrites : List (Nat × EntryFile)
  mTasks : List DeferredTask
  mDisk : List (Nat × EntryFile)
  mClock : Nat

/-- Modelled from the spec: construction with
`(maxTotalSize, maxHotCacheSize, baseDir)`; the key/value maxima and the
hot-cache entry-count limit are configuration constants the header keeps
in `mMaxKeySize`/`mMaxValueSize`/`mHotCacheEntryLimit`, taken here as
parameters together with the (unspecified) key-hash function. -/
def initState (hashOf : List Nat → Nat) (maxTotalSize maxHotCacheSize : Nat)
    (baseDir : String) (maxKeySize maxValueSize hotCacheEntryLimit : Nat) :
    CacheState :=
  { hashOf := hashOf
    mInitialized := true
    mMultifileDirName := baseDir
    mEntries := []
    mEntryStats := []
    mHotCache := []
    mMaxKeySize := maxKeySize
    mMaxValueSize := maxValueSize
    mMaxTotalSize := maxTotalSize
    mTotalCacheSize := 0
    mHotCacheLimit := maxHotCacheSize
    mHotCacheEntryLimit := hotCacheEntryLimit
    mHotCacheSize := 0
    mDeferredWrites := []
    mTasks := []
    mDisk := []
    mClock := 0 }

/-! ### Index and stats (spec section 4.1) -/

/-- Modelled from the spec: `contains(hash)` — pure membership lookup in
`mEntries`. -/
def containsEntry (st : CacheState) (h : Nat) : Prop := h ∈ st.mEntries

instance (st : CacheState) (h : Nat) : Decidable (containsEntry st h) :=
  inferInstanceAs (Decidable (h ∈ st.mEntries))

/-- Modelled from the spec: `getEntryStats(hash)` — pure lookup; an
absent hash is a miss (`none`), never an error. -/
def getEntryStats (st : CacheState) (h : Nat) : Option MultifileEntryStats :=
  alookup st.mEntryStats h

/-- Modelled from the spec: `getFileSize(hash)`. -/
def getFileSize (st : CacheState) (h : Nat) : Nat :=
  match getEntryStats st h with
  | some s => s.fileSize
  | none => 0

/-- Modelled from the spec: `getValueSize(hash)`. -/
def getValueSize (st : CacheState) (h : Nat) : Nat :=
  match getEntryStats st h with
  | some s => s.valueSize
  | none => 0

/-- Modelled from the spec: `trackEntry(hash, valueSize, fileSize,
accessTime)` inserts or updates the record for `hash` and adjusts
`mTotalCacheSize` by the signed delta against any prior record.  Note
the parameter list, faithful to the source declaration, carries no key
size. -/
def trackEntry (st : CacheState) (h valueSize fileSize accessTime : Nat) :
    CacheState :=
  match alookup st.mEntryStats h with
  | some old =>
    { st with
      mEntryStats := aupdate st.mEntryStats h
        { valueSize := valueSize, fileSize := fileSize, accessTime := accessTime }
      mTotalCacheSize := st.mTotalCacheSize - old.fileSize + fileSize }
  | none =>
    { st with
      mEntries := h :: st.mEntries
      mEntryStats := (h,
        { valueSize := valueSize, fileSize := fileSize, accessTime := accessTime })
        :: st.mEntryStats
      mTotalCacheSize := st.mTotalCacheSize + fileSize }

/-! ### Hot cache (spec section 4.2) -/

/-- Modelled from the spec: `removeFromHotCache(hash)` — closes the
handle, releases the buffer, removes the mapping and decreases
`mHotCacheSize`; a no-op when absent. -/
def removeFromHotCache (st : CacheState) (h : Nat) : CacheState :=
  match alookup st.mHotCache h with
  | some hc =>
    { st with
      mHotCache := eraseKey st.mHotCache h
      mHotCacheSize := st.mHotCacheSize - hc.entrySize }
  | none => st

/-- Modelled from the spec: hot-cache admission evicts oldest-inserted
entries (the hot list is kept oldest-first) until both the byte budget
and the entry-count budget have room for the incoming entry. -/
def hotEvict (needSize limit entryLimit : Nat) :
    List (Nat × MultifileHotCache) → Nat → List (Nat × MultifileHotCache) × Nat
  | [], sz => ([], sz)
  | e :: rest, sz =>
    if sz + needSize ≤ limit ∧ (e :: rest).length + 1 ≤ entryLimit then
      (e :: rest, sz)
    else hotEvict needSize limit entryLimit rest (sz - e.2.entrySize)

/-- Modelled from the spec: `addToHotCache(hash, fd, buffer, size)` —
admits the entry after making room by evicting oldest-first, or rejects
it silently when the single entry alone exceeds a budget. -/
def addToHotCache (st : CacheState) (h : Nat) (buf : EntryFile) (sz : Nat) :
    CacheState × Bool :=
  if sz ≤ st.mHotCacheLimit ∧ 1 ≤ st.mHotCacheEntryLimit then
    let r := hotEvict sz st.mHotCacheLimit st.mHotCacheEntryLimit
      st.mHotCache st.mHotCacheSize
    ({ st with
       mHotCache := r.1 ++ [(h, { entryFd := 0, entryBuffer := buf, entrySize := sz })]
       mHotCacheSize := r.2 + sz }, true)
  else (st, false)

/-! ### Entry removal and LRU eviction (spec sections 4.1, 4.5) -/

/-- Modelled from the spec: `removeEntry(hash)` deletes the backing
file, removes the index record and any hot-cache entry, and decreases
`mTotalCacheSize`; reports whether a record existed; idempotent (no side
effects and `false`) on a missing hash. -/
def removeEntry (st : CacheState) (h : Nat) : CacheState × Bool :=
  if h ∈ st.mEntries then
    let fs := getFileSize st h
    let st1 := removeFromHotCache st h
    ({ st1 with
       mDisk := eraseKey st1.mDisk h
       mEntries := removeAll st1.mEntries h
       mEntryStats := eraseKey st1.mEntryStats h
       mTotalCacheSize := st1.mTotalCacheSize - fs }, true)
  else (st, false)

/-- Strict order "evicted earlier": smaller `accessTime` first, ties
broken deterministically by smaller hash. -/
def lruLt (a b : Nat × MultifileEntryStats) : Prop :=
  a.2.accessTime < b.2.accessTime ∨
    (a.2.accessTime = b.2.accessTime ∧ a.1 < b.1)

/-- Reflexive companion of `lruLt`. -/
def lruLe (a b : Nat × MultifileEntryStats) : Prop :=
  a.2.accessTime < b.2.accessTime ∨
    (a.2.accessTime = b.2.accessTime ∧ a.1 ≤ b.1)

instance (a b : Nat × MultifileEntryStats) : Decidable (lruLt a b) := by
  unfold lruLt; infer_instance

instance (a b : Nat × MultifileEntryStats) : Decidable (lruLe a b) := by
  unfold lruLe; infer_instance

/-- Minimum of a nonempty stats table under the eviction order. -/
def minByLru : Nat × MultifileEntryStats → List (Nat × MultifileEntryStats) →
    Nat × MultifileEntryStats
  | p, [] => p
  | p, q :: rest => minByLru (if lruLe q p then q else p) rest

/-- Modelled from the spec: selection of the eviction victim — the
currently indexed entry with the smallest `accessTime` (deterministic
tie-break by hash); `none` when the index is empty. -/
def selectVictim (st : CacheState) : Option Nat :=
  match st.mEntryStats with
  | [] => none
  | p :: rest => some (minByLru p rest).1

/-- Modelled from the spec: the eviction loop of `applyLRU`, with
explicit fuel (each iteration removes one indexed entry, so
`mEntryStats.length` fuel suffices).  Stops as soon as
`mTotalCacheSize ≤ limit` or no entries remain. -/
def applyLRUAux (limit : Nat) : Nat → CacheState → CacheState
  | 0, st => st
  | fuel + 1, st =>
    if st.mTotalCacheSize ≤ limit then st
    else
      match selectVictim st with
      | none => st
      | some h => applyLRUAux limit fuel (removeEntry st h).1

/-- Modelled from the spec: `applyLRU(cacheLimit)` — repeatedly removes
the least-recently-accessed indexed entry until the total size is within
the limit or no entries remain. -/
def applyLRU (st : CacheState) (limit : Nat) : CacheState :=
  applyLRUAux limit st.mEntryStats.length st

/-! ### Public write/read path (spec sections 4.3, 4.6) -/

/-- Modelled from the spec: the buffer a read obtains for a hash — the
hot cache first, else the newest pending (not yet persisted) write for
that hash, else the on-disk file. -/
def lookupBuffer (st : CacheState) (h : Nat) : Option EntryFile :=
  match alookup st.mHotCache h with
  | some hc => some hc.entryBuffer
  | none =>
    match alookup st.mDeferredWrites h with
    | some b => some b
    | none => alookup st.mDisk h

/-- Modelled from the spec: refresh of an indexed entry's `accessTime`
on a cache hit; reads and advances the clock. -/
def touchEntry (st : CacheState) (h : Nat) : CacheState :=
  match alookup st.mEntryStats h with
  | some s =>
    { st with
      mEntryStats := aupdate st.mEntryStats h { s with accessTime := st.mClock }
      mClock := st.mClock + 1 }
  | none => st

/-- The header+key+value buffer `set` builds for a key/value pair. -/
def bufferFor (key value : List Nat) : EntryFile :=
  { header := { keySize := key.length, valueSize := value.length }
    keyBytes := key
    valueBytes := value }

/-- Modelled from the spec: the accepted path of `set`, before the
over-budget eviction check: replace any hot entry for the hash, record
the buffer in the pending-write registry, update the index with
provisional stats stamped now, and append a `WriteToDisk` task built
through the declared `DeferredTask` construction path. -/
def setAccepted (st : CacheState) (key value : List Nat) : CacheState :=
  let h := st.hashOf key
  let buf := bufferFor key value
  let fileSize := multifileHeaderSize + key.length + value.length
  let now := st.mClock
  let st1 := removeFromHotCache st h
  let st2 := (addToHotCache st1 h buf fileSize).1
  let st3 := { st2 with mDeferredWrites := (h, buf) :: st2.mDeferredWrites }
  let st4 := trackEntry st3 h value.length fileSize now
  let task := (DeferredTask.ofCommand TaskCommand.WriteToDisk).initWriteToDisk
    h buf fileSize
  { st4 with mTasks := st4.mTasks ++ [task], mClock := st4.mClock + 1 }

/-- Modelled from the spec: `set(key, keySize, value, valueSize)`.
Oversize input is a silent no-op; otherwise the accepted path runs and,
if the cache is now over budget, LRU eviction brings it back to
`mMaxTotalSize`.  The key byte list carries its own length, so `keySize`
is `key.length` and `valueSize` is `value.length`. -/
def set (st : CacheState) (key value : List Nat) : CacheState :=
  if key.length > st.mMaxKeySize ∨ value.length > st.mMaxValueSize then st
  else
    let st5 := setAccepted st key value
    if st5.mTotalCacheSize > st5.mMaxTotalSize then applyLRU st5 st5.mMaxTotalSize
    else st5

/-- Result of a `get`: the `EGLsizeiANDROID` return (0 on a miss, the
stored `valueSize` on a hit, also in the size-probe case) and the bytes
actually copied into the caller's destination buffer (`none` when no
bytes are written). -/
structure GetResult where
  retVal : Nat
  written : Option (List Nat)
deriving DecidableEq, Repr

/-- Modelled from the spec: `get(key, keySize, value, valueSize)` with
`valueSize` the destination capacity.  A non-indexed hash, an unreadable
file, or a stored-key mismatch (hash collision) is a miss; on a verified
match the access time is refreshed, and when the capacity is smaller
than the stored value no bytes are copied and the required size is
reported. -/
def get (st : CacheState) (key : List Nat) (capacity : Nat) :
    CacheState × GetResult :=
  let h := st.hashOf key
  if h ∈ st.mEntries then
    match lookupBuffer st h with
    | some buf =>
      if buf.header.keySize = key.length ∧ buf.keyBytes = key then
        let st1 := touchEntry st h
        if capacity < buf.header.valueSize then
          (st1, { retVal := buf.header.valueSize, written := none })
        else
          (st1, { retVal := buf.header.valueSize, written := some buf.valueBytes })
      else (st, { retVal := 0, written := none })
    | none => (st, { retVal := 0, written := none })
  else (st, { retVal := 0, written := none })

/-! ### Deferred write pipeline (spec section 4.4) -/

/-- Modelled from the spec: `processTask(WriteToDisk{path, buffer,
size})` writes the buffer to the path (creating or replacing the file),
updates stats via `trackEntry`, and removes the corresponding
pending-write record; `Exit` and `Invalid` tasks mutate nothing.  The
access time passed to `trackEntry` keeps an indexed entry's current
stamp (the provisional stamp `set` recorded, or a later refresh). -/
def processTask (st : CacheState) (t : DeferredTask) : CacheState :=
  match t.mCommand with
  | TaskCommand.WriteToDisk =>
    match t.mFullPath, t.mBuffer with
    | some p, some buf =>
      let st1 := { st with mDisk := aupdate st.mDisk p buf }
      let aTime :=
        match alookup st1.mEntryStats p with
        | some s => s.accessTime
        | none => st1.mClock
      let st2 := trackEntry st1 p buf.header.valueSize t.mBufferSize aTime
      { st2 with mDeferredWrites := erasePair st2.mDeferredWrites (p, buf) }
    | _, _ => st
  | _ => st

/-- Sequential embedding of the worker consuming a task list in FIFO
order. -/
def drainTasks : List DeferredTask → CacheState → CacheState
  | [], st => st
  | t :: rest, st => drainTasks rest (processTask st t)

/-- Modelled from the spec: `waitForWorkComplete()` — blocks until the
queue is empty and the worker is idle; in the sequential embedding,
every queued task has been processed in FIFO order and the queue is
empty. -/
def waitForWorkComplete (st : CacheState) : CacheState :=
  drainTasks st.mTasks { st with mTasks := [] }

/-- Modelled from the spec: `finish()` drains the write pipeline. -/
def finish (st : CacheState) : CacheState := waitForWorkComplete st

/-- Modelled from the spec: `trimCache(cacheByteLimit)` first drains the
write pipeline so size accounting reflects completed writes, then
applies LRU eviction to the limit. -/
def trimCache (st : CacheState) (limit : Nat) : CacheState :=
  applyLRU (waitForWorkComplete st) limit

/-- Modelled from the spec: the worker loop `processTasksImpl` —
processes tasks strictly in FIFO order and terminates the loop when the
task just processed is `Exit`, leaving any later tasks on the queue. -/
def runWorkerAux : List DeferredTask → CacheState → CacheState
  | [], st => st
  | t :: rest, st =>
    match t.mCommand with
    | TaskCommand.Exit => { processTask st t with mTasks := rest }
    | _ => runWorkerAux rest (processTask st t)

/-- Worker loop entered on the current queue. -/
def runWorker (st : CacheState) : CacheState :=
  runWorkerAux st.mTasks { st with mTasks := [] }

/-- Last `WriteToDisk` payload queued for a path, if any: the buffer the
file must hold once the queue is drained (later writes overwrite earlier
ones). -/
def lastWriteFor : List DeferredTask → Nat → Option EntryFile
  | [], _ => none
  | t :: rest, p =>
    match lastWriteFor rest p with
    | some b => some b
    | none =>
      if t.mCommand = TaskCommand.WriteToDisk ∧ t.mFullPath = some p then t.mBuffer
      else none

/-! ### Operation sequences and the index invariant -/

/-- One cache operation, public or internal, as enumerated by the
index-consistency claim. -/
inductive CacheOp where
  | opSet (key value : List Nat)
  | opGet (key : List Nat) (capacity : Nat)
  | opTrackEntry (h valueSize fileSize accessTime : Nat)
  | opRemoveEntry (h : Nat)
  | opApplyLRU (limit : Nat)
  | opTrimCache (limit : Nat)

/-- Effect of one operation on the state. -/
def applyOp (st : CacheState) : CacheOp → CacheState
  | CacheOp.opSet k v => set st k v
  | CacheOp.opGet k c => (get st k c).1
  | CacheOp.opTrackEntry h v f a => trackEntry st h v f a
  | CacheOp.opRemoveEntry h => (removeEntry st h).1
  | CacheOp.opApplyLRU l => applyLRU st l
  | CacheOp.opTrimCache l => trimCache st l

/-- Run of a sequence of operations. -/
def runOps (st : CacheState) (ops : List CacheOp) : CacheState :=
  ops.foldl applyOp st

/-- Index-consistency invariant: the entry set and the stats table hold
the same hashes with no duplicates, and `mTotalCacheSize` is the sum of
the indexed `fileSize`s. -/
def Inv (st : CacheState) : Prop :=
  st.mEntries.Nodup ∧ (akeys st.mEntryStats).Nodup ∧
    (∀ h ∈ st.mEntries, h ∈ akeys st.mEntryStats) ∧
    (∀ h ∈ akeys st.mEntryStats, h ∈ st.mEntries) ∧
    st.mTotalCacheSize = sumFS st.mEntryStats

instance (st : CacheState) : Decidable (Inv st) := by
  unfold Inv; infer_instance

/-- Clock-dominance: every recorded access time is strictly in the
past.  Holds in every reachable state because the clock advances on
each stamped read/write. -/
def ClockInv (st : CacheState) : Prop :=
  ∀ p ∈ st.mEntryStats, p.2.accessTime < st.mClock

instance (st : CacheState) : Decidable (ClockInv st) := by
  unfold ClockInv; infer_instance


/-! ### Lemmas about the association-list helpers -/

theorem akeys_nil {α : Type} : akeys ([] : List (Nat × α)) = [] := rfl

theorem akeys_cons {α : Type} (p : Nat × α) (l : List (Nat × α)) :
    akeys (p :: l) = p.1 :: akeys l := rfl

theorem alookup_aupdate_self {α : Type} (l : List (Nat × α)) (k : Nat) (v : α) :
    alookup (aupdate l k v) k = some v := by
  induction l with
  | nil => simp [aupdate, alookup]
  | cons p rest ih =>
    by_cases h : p.1 = k
    · simp [aupdate, h, alookup]
    · simp [aupdate, h, alookup, ih]

theorem alookup_aupdate_ne {α : Type} (l : List (Nat × α)) (k k' : Nat) (v : α)
    (h : k' ≠ k) : alookup (aupdate l k v) k' = alookup l k' := by
  induction l with
  | nil => simp [aupdate, alookup, h, Ne.symm h]
  | cons p rest ih =>
    by_cases hp : p.1 = k
    · simp [aupdate, hp, alookup, h, Ne.symm h]
    · by_cases hp' : p.1 = k'
      · simp [aupdate, hp, alookup, hp', h, Ne.symm h]
      · simp [aupdate, hp, alookup, hp', ih]

theorem alookup_eq_none_iff {α : Type} (l : List (Nat × α)) (k : Nat) :
    alookup l k = none ↔ k ∉ akeys l := by
  induction l with
  | nil => simp [alookup, akeys_nil]
  | cons p rest ih =>
    rw [akeys_cons]
    by_cases h : p.1 = k
    · simp [alookup, h]
    · simp [alookup, h, ih, Ne.symm h]

theorem alookup_isSome_of_mem_akeys {α : Type} (l : List (Nat × α)) (k : Nat)
    (h : k ∈ akeys l) : ∃ v, alookup l k = some v := by
  cases hv : alookup l k with
  | none => exact absurd h ((alookup_eq_none_iff l k).mp hv)
  | some v => exact ⟨v, rfl⟩

theorem mem_of_alookup_eq_some {α : Type} (l : List (Nat × α)) (k : Nat) (v : α)
    (h : alookup l k = some v) : (k, v) ∈ l := by
  induction l with
  | nil => simp [alookup] at h
  | cons p rest ih =>
    cases p with
    | mk a b =>
      by_cases hp : a = k
      · have : b = v := by simpa [alookup, hp] using h
        subst hp
        subst this
        exact List.mem_cons_self _ _
      · have : alookup rest k = some v := by simpa [alookup, hp] using h
        exact List.mem_cons_of_mem _ (ih this)

theorem mem_akeys_of_alookup {α : Type} (l : List (Nat × α)) (k : Nat) (v : α)
    (h : alookup l k = some v) : k ∈ akeys l :=
  List.mem_map.mpr ⟨(k, v), mem_of_alookup_eq_some l k v h, rfl⟩

theorem akeys_aupdate_of_some {α : Type} (l : List (Nat × α)) (k : Nat) (v w : α)
    (h : alookup l k = some w) : akeys (aupdate l k v) = akeys l := by
  induction l with
  | nil => simp [alookup] at h
  | cons p rest ih =>
    by_cases hp : p.1 = k
    · simp [aupdate, hp, akeys_cons]
    · have h' : alookup rest k = some w := by simpa [alookup, hp] using h
      simp [aupdate, hp, akeys_cons, ih h']

theorem akeys_aupdate_of_none {α : Type} (l : List (Nat × α)) (k : Nat) (v : α)
    (h : alookup l k = none) : akeys (aupdate l k v) = akeys l ++ [k] := by
  induction l with
  | nil => simp [aupdate, akeys_cons, akeys_nil]
  | cons p rest ih =>
    by_cases hp : p.1 = k
    · simp [alookup, hp] at h
    · have h' : alookup rest k = none := by simpa [alookup, hp] using h
      simp [aupdate, hp, akeys_cons, ih h']

theorem sumFS_cons (p : Nat × MultifileEntryStats)
    (l : List (Nat × MultifileEntryStats)) :
    sumFS (p :: l) = p.2.fileSize + sumFS l := by
  simp [sumFS]

theorem sumFS_aupdate (l : List (Nat × MultifileEntryStats)) (k : Nat)
    (v old : MultifileEntryStats) (h : alookup l k = some old) :
    sumFS (aupdate l k v) + old.fileSize = sumFS l + v.fileSize := by
  induction l with
  | nil => simp [alookup] at h
  | cons p rest ih =>
    by_cases hp : p.1 = k
    · have hpv : p.2 = old := by simpa [alookup, hp] using h
      simp [aupdate, hp, sumFS_cons, hpv]
      omega
    · have h' : alookup rest k = some old := by simpa [alookup, hp] using h
      have := ih h'
      simp [aupdate, hp, sumFS_cons]
      omega

theorem fileSize_le_sumFS (l : List (Nat × MultifileEntryStats)) (k : Nat)
    (s : MultifileEntryStats) (h : alookup l k = some s) :
    s.fileSize ≤ sumFS l := by
  induction l with
  | nil => simp [alookup] at h
  | cons p rest ih =>
    by_cases hp : p.1 = k
    · have hpv : p.2 = s := by simpa [alookup, hp] using h
      rw [sumFS_cons, ← hpv]
      omega
    · have h' : alookup rest k = some s := by simpa [alookup, hp] using h
      have := ih h'
      rw [sumFS_cons]
      omega

theorem mem_removeAll (l : List Nat) (k x : Nat) :
    x ∈ removeAll l k ↔ x ∈ l ∧ x ≠ k := by
  induction l with
  | nil => simp [removeAll]
  | cons y rest ih =>
    by_cases hy : y = k
    · rw [removeAll, if_pos hy, ih]
      subst hy
      constructor
      · rintro ⟨hm, hne⟩
        exact ⟨List.mem_cons_of_mem _ hm, hne⟩
      · rintro ⟨hm, hne⟩
        rcases List.mem_cons.mp hm with rfl | hm2
        · exact absurd rfl hne
        · exact ⟨hm2, hne⟩
    · rw [removeAll, if_neg hy]
      constructor
      · intro hm
        rcases List.mem_cons.mp hm with rfl | hm2
        · exact ⟨List.mem_cons_self _ _, hy⟩
        · rcases ih.mp hm2 with ⟨hm3, hne⟩
          exact ⟨List.mem_cons_of_mem _ hm3, hne⟩
      · rintro ⟨hm, hne⟩
        rcases List.mem_cons.mp hm with rfl | hm2
        · exact List.mem_cons_self _ _
        · exact List.mem_cons_of_mem _ (ih.mpr ⟨hm2, hne⟩)

theorem nodup_removeAll (l : List Nat) (k : Nat) (h : l.Nodup) :
    (removeAll l k).Nodup := by
  induction l with
  | nil => simp [removeAll]
  | cons y rest ih =>
    rw [List.nodup_cons] at h
    by_cases hy : y = k
    · simpa [removeAll, hy] using ih h.2
    · rw [removeAll, if_neg hy, List.nodup_cons]
      exact ⟨fun hm => h.1 ((mem_removeAll rest k y).mp hm).1, ih h.2⟩

theorem akeys_eraseKey {α : Type} (l : List (Nat × α)) (k : Nat) :
    akeys (eraseKey l k) = removeAll (akeys l) k := by
  induction l with
  | nil => rfl
  | cons p rest ih =>
    by_cases hp : p.1 = k
    · simp only [eraseKey, if_pos hp, akeys_cons, removeAll, ih]
      rfl
    · simp only [eraseKey, if_neg hp, akeys_cons, removeAll, if_neg hp, ih]
      rfl

theorem alookup_eraseKey_ne {α : Type} (l : List (Nat × α)) (k k' : Nat)
    (h : k' ≠ k) : alookup (eraseKey l k) k' = alookup l k' := by
  induction l with
  | nil => simp [eraseKey]
  | cons p rest ih =>
    by_cases hp : p.1 = k
    · have : ¬ p.1 = k' := by rw [hp]; exact Ne.symm h
      simp [eraseKey, hp, alookup, this, ih, h, Ne.symm h]
    · by_cases hp' : p.1 = k'
      · simp [eraseKey, hp, alookup, hp', h, Ne.symm h]
      · simp [eraseKey, hp, alookup, hp', ih]

theorem alookup_eraseKey_self {α : Type} (l : List (Nat × α)) (k : Nat) :
    alookup (eraseKey l k) k = none := by
  induction l with
  | nil => simp [eraseKey, alookup]
  | cons p rest ih =>
    by_cases hp : p.1 = k
    · simp [eraseKey, hp, ih]
    · simp [eraseKey, hp, alookup, hp, ih]

theorem eraseKey_of_not_mem {α : Type} (l : List (Nat × α)) (k : Nat)
    (h : k ∉ akeys l) : eraseKey l k = l := by
  induction l with
  | nil => rfl
  | cons p rest ih =>
    rw [akeys_cons, List.mem_cons] at h
    push_neg at h
    rw [eraseKey, if_neg (fun c => h.1 c.symm), ih h.2]

theorem sumFS_eraseKey (l : List (Nat × MultifileEntryStats)) (k : Nat)
    (s : MultifileEntryStats) (hnd : (akeys l).Nodup)
    (h : alookup l k = some s) :
    sumFS (eraseKey l k) + s.fileSize = sumFS l := by
  induction l with
  | nil => simp [alookup] at h
  | cons p rest ih =>
    rw [akeys_cons, List.nodup_cons] at hnd
    by_cases hp : p.1 = k
    · have hpv : p.2 = s := by simpa [alookup, hp] using h
      have hnm : k ∉ akeys rest := by rw [← hp]; exact hnd.1
      rw [eraseKey, if_pos hp, eraseKey_of_not_mem rest k hnm, sumFS_cons, ← hpv]
      omega
    · have h' : alookup rest k = some s := by simpa [alookup, hp] using h
      have := ih hnd.2 h'
      rw [eraseKey, if_neg hp, sumFS_cons, sumFS_cons]
      omega

theorem mem_of_mem_eraseKey {α : Type} (l : List (Nat × α)) (k : Nat)
    (p : Nat × α) (h : p ∈ eraseKey l k) : p ∈ l := by
  induction l with
  | nil => simp [eraseKey] at h
  | cons q rest ih =>
    by_cases hq : q.1 = k
    · rw [eraseKey, if_pos hq] at h
      exact List.mem_cons_of_mem q (ih h)
    · rw [eraseKey, if_neg hq, List.mem_cons] at h
      rcases h with rfl | h
      · exact List.mem_cons_self p rest
      · exact List.mem_cons_of_mem q (ih h)

theorem eraseKey_length_le {α : Type} (l : List (Nat × α)) (k : Nat) :
    (eraseKey l k).length ≤ l.length := by
  induction l with
  | nil => simp [eraseKey]
  | cons p rest ih =>
    by_cases hp : p.1 = k
    · rw [eraseKey, if_pos hp]
      simp only [List.length_cons]
      omega
    · rw [eraseKey, if_neg hp]
      simp only [List.length_cons]
      omega

theorem eraseKey_length_lt {α : Type} (l : List (Nat × α)) (k : Nat)
    (h : k ∈ akeys l) : (eraseKey l k).length < l.length := by
  induction l with
  | nil => simp [akeys_nil] at h
  | cons p rest ih =>
    by_cases hp : p.1 = k
    · have := eraseKey_length_le rest k
      rw [eraseKey, if_pos hp]
      simp only [List.length_cons]
      omega
    · rw [akeys_cons, List.mem_cons] at h
      rcases h with h | h
      · exact absurd h.symm hp
      · have := ih h
        rw [eraseKey, if_neg hp]
        simp only [List.length_cons]
        omega

theorem alookup_append_of_not_mem {α : Type} (l1 l2 : List (Nat × α)) (k : Nat)
    (h : k ∉ akeys l1) : alookup (l1 ++ l2) k = alookup l2 k := by
  induction l1 with
  | nil => simp
  | cons p rest ih =>
    rw [akeys_cons, List.mem_cons] at h
    push_neg at h
    rw [List.cons_append, alookup, if_neg (fun c => h.1 c.symm), ih h.2]


/-! ### Frame lemmas: which fields each operation leaves unchanged -/

theorem removeFromHotCache_mEntries (st : CacheState) (h : Nat) :
    (removeFromHotCache st h).mEntries = st.mEntries := by
  unfold removeFromHotCache; cases alookup st.mHotCache h <;> rfl

theorem removeFromHotCache_mEntryStats (st : CacheState) (h : Nat) :
    (removeFromHotCache st h).mEntryStats = st.mEntryStats := by
  unfold removeFromHotCache; cases alookup st.mHotCache h <;> rfl

theorem removeFromHotCache_mTotalCacheSize (st : CacheState) (h : Nat) :
    (removeFromHotCache st h).mTotalCacheSize = st.mTotalCacheSize := by
  unfold removeFromHotCache; cases alookup st.mHotCache h <;> rfl

theorem removeFromHotCache_mDisk (st : CacheState) (h : Nat) :
    (removeFromHotCache st h).mDisk = st.mDisk := by
  unfold removeFromHotCache; cases alookup st.mHotCache h <;> rfl

theorem removeFromHotCache_mDeferredWrites (st : CacheState) (h : Nat) :
    (removeFromHotCache st h).mDeferredWrites = st.mDeferredWrites := by
  unfold removeFromHotCache; cases alookup st.mHotCache h <;> rfl

theorem removeFromHotCache_mTasks (st : CacheState) (h : Nat) :
    (removeFromHotCache st h).mTasks = st.mTasks := by
  unfold removeFromHotCache; cases alookup st.mHotCache h <;> rfl

theorem removeFromHotCache_mClock (st : CacheState) (h : Nat) :
    (removeFromHotCache st h).mClock = st.mClock := by
  unfold removeFromHotCache; cases alookup st.mHotCache h <;> rfl

theorem removeFromHotCache_config (st : CacheState) (h : Nat) :
    (removeFromHotCache st h).mMaxKeySize = st.mMaxKeySize ∧
    (removeFromHotCache st h).mMaxValueSize = st.mMaxValueSize ∧
    (removeFromHotCache st h).mMaxTotalSize = st.mMaxTotalSize ∧
    (removeFromHotCache st h).mHotCacheLimit = st.mHotCacheLimit ∧
    (removeFromHotCache st h).mHotCacheEntryLimit = st.mHotCacheEntryLimit ∧
    (removeFromHotCache st h).hashOf = st.hashOf := by
  unfold removeFromHotCache; cases alookup st.mHotCache h <;> exact ⟨rfl, rfl, rfl, rfl, rfl, rfl⟩

theorem addToHotCache_mEntries (st : CacheState) (h : Nat) (b : EntryFile) (sz : Nat) :
    (addToHotCache st h b sz).1.mEntries = st.mEntries := by
  unfold addToHotCache; split <;> rfl

theorem addToHotCache_mEntryStats (st : CacheState) (h : Nat) (b : EntryFile) (sz : Nat) :
    (addToHotCache st h b sz).1.mEntryStats = st.mEntryStats := by
  unfold addToHotCache; split <;> rfl

theorem addToHotCache_mTotalCacheSize (st : CacheState) (h : Nat) (b : EntryFile) (sz : Nat) :
    (addToHotCache st h b sz).1.mTotalCacheSize = st.mTotalCacheSize := by
  unfold addToHotCache; split <;> rfl

theorem addToHotCache_mDisk (st : CacheState) (h : Nat) (b : EntryFile) (sz : Nat) :
    (addToHotCache st h b sz).1.mDisk = st.mDisk := by
  unfold addToHotCache; split <;> rfl

theorem addToHotCache_mDeferredWrites (st : CacheState) (h : Nat) (b : EntryFile) (sz : Nat) :
    (addToHotCache st h b sz).1.mDeferredWrites = st.mDeferredWrites := by
  unfold addToHotCache; split <;> rfl

theorem addToHotCache_mTasks (st : CacheState) (h : Nat) (b : EntryFile) (sz : Nat) :
    (addToHotCache st h b sz).1.mTasks = st.mTasks := by
  unfold addToHotCache; split <;> rfl

theorem addToHotCache_mClock (st : CacheState) (h : Nat) (b : EntryFile) (sz : Nat) :
    (addToHotCache st h b sz).1.mClock = st.mClock := by
  unfold addToHotCache; split <;> rfl

theorem addToHotCache_config (st : CacheState) (h : Nat) (b : EntryFile) (sz : Nat) :
    (addToHotCache st h b sz).1.mMaxKeySize = st.mMaxKeySize ∧
    (addToHotCache st h b sz).1.mMaxValueSize = st.mMaxValueSize ∧
    (addToHotCache st h b sz).1.mMaxTotalSize = st.mMaxTotalSize ∧
    (addToHotCache st h b sz).1.mHotCacheLimit = st.mHotCacheLimit ∧
    (addToHotCache st h b sz).1.mHotCacheEntryLimit = st.mHotCacheEntryLimit ∧
    (addToHotCache st h b sz).1.hashOf = st.hashOf := by
  unfold addToHotCache; split <;> exact ⟨rfl, rfl, rfl, rfl, rfl, rfl⟩

theorem trackEntry_mHotCache (st : CacheState) (h v f a : Nat) :
    (trackEntry st h v f a).mHotCache = st.mHotCache := by
  unfold trackEntry; cases alookup st.mEntryStats h <;> rfl

theorem trackEntry_mHotCacheSize (st : CacheState) (h v f a : Nat) :
    (trackEntry st h v f a).mHotCacheSize = st.mHotCacheSize := by
  unfold trackEntry; cases alookup st.mEntryStats h <;> rfl

theorem trackEntry_mDisk (st : CacheState) (h v f a : Nat) :
    (trackEntry st h v f a).mDisk = st.mDisk := by
  unfold trackEntry; cases alookup st.mEntryStats h <;> rfl

theorem trackEntry_mDeferredWrites (st : CacheState) (h v f a : Nat) :
    (trackEntry st h v f a).mDeferredWrites = st.mDeferredWrites := by
  unfold trackEntry; cases alookup st.mEntryStats h <;> rfl

theorem trackEntry_mTasks (st : CacheState) (h v f a : Nat) :
    (trackEntry st h v f a).mTasks = st.mTasks := by
  unfold trackEntry; cases alookup st.mEntryStats h <;> rfl

theorem trackEntry_mClock (st : CacheState) (h v f a : Nat) :
    (trackEntry st h v f a).mClock = st.mClock := by
  unfold trackEntry; cases alookup st.mEntryStats h <;> rfl

theorem trackEntry_config (st : CacheState) (h v f a : Nat) :
    (trackEntry st h v f a).mMaxKeySize = st.mMaxKeySize ∧
    (trackEntry st h v f a).mMaxValueSize = st.mMaxValueSize ∧
    (trackEntry st h v f a).mMaxTotalSize = st.mMaxTotalSize ∧
    (trackEntry st h v f a).mHotCacheLimit = st.mHotCacheLimit ∧
    (trackEntry st h v f a).mHotCacheEntryLimit = st.mHotCacheEntryLimit ∧
    (trackEntry st h v f a).hashOf = st.hashOf := by
  unfold trackEntry; cases alookup st.mEntryStats h <;> exact ⟨rfl, rfl, rfl, rfl, rfl, rfl⟩

theorem touchEntry_mEntries (st : CacheState) (h : Nat) :
    (touchEntry st h).mEntries = st.mEntries := by
  unfold touchEntry; cases alookup st.mEntryStats h <;> rfl

theorem touchEntry_mHotCache (st : CacheState) (h : Nat) :
    (touchEntry st h).mHotCache = st.mHotCache := by
  unfold touchEntry; cases alookup st.mEntryStats h <;> rfl

theorem touchEntry_mTotalCacheSize (st : CacheState) (h : Nat) :
    (touchEntry st h).mTotalCacheSize = st.mTotalCacheSize := by
  unfold touchEntry; cases alookup st.mEntryStats h <;> rfl

theorem touchEntry_mDisk (st : CacheState) (h : Nat) :
    (touchEntry st h).mDisk = st.mDisk := by
  unfold touchEntry; cases alookup st.mEntryStats h <;> rfl

theorem touchEntry_mDeferredWrites (st : CacheState) (h : Nat) :
    (touchEntry st h).mDeferredWrites = st.mDeferredWrites := by
  unfold touchEntry; cases alookup st.mEntryStats h <;> rfl

theorem touchEntry_mTasks (st : CacheState) (h : Nat) :
    (touchEntry st h).mTasks = st.mTasks := by
  unfold touchEntry; cases alookup st.mEntryStats h <;> rfl

theorem removeEntry_mDeferredWrites (st : CacheState) (h : Nat) :
    (removeEntry st h).1.mDeferredWrites = st.mDeferredWrites := by
  unfold removeEntry
  by_cases hm : h ∈ st.mEntries
  · simp only [if_pos hm]
    exact removeFromHotCache_mDeferredWrites st h
  · simp only [if_neg hm]

theorem removeEntry_mTasks (st : CacheState) (h : Nat) :
    (removeEntry st h).1.mTasks = st.mTasks := by
  unfold removeEntry
  by_cases hm : h ∈ st.mEntries
  · simp only [if_pos hm]
    exact removeFromHotCache_mTasks st h
  · simp only [if_neg hm]

theorem removeEntry_mClock (st : CacheState) (h : Nat) :
    (removeEntry st h).1.mClock = st.mClock := by
  unfold removeEntry
  by_cases hm : h ∈ st.mEntries
  · simp only [if_pos hm]
    exact removeFromHotCache_mClock st h
  · simp only [if_neg hm]

theorem removeEntry_config (st : CacheState) (h : Nat) :
    (removeEntry st h).1.mMaxKeySize = st.mMaxKeySize ∧
    (removeEntry st h).1.mMaxValueSize = st.mMaxValueSize ∧
    (removeEntry st h).1.mMaxTotalSize = st.mMaxTotalSize ∧
    (removeEntry st h).1.mHotCacheLimit = st.mHotCacheLimit ∧
    (removeEntry st h).1.mHotCacheEntryLimit = st.mHotCacheEntryLimit ∧
    (removeEntry st h).1.hashOf = st.hashOf := by
  unfold removeEntry
  by_cases hm : h ∈ st.mEntries
  · simp only [if_pos hm]
    have := removeFromHotCache_config st h
    exact ⟨this.1, this.2.1, this.2.2.1, this.2.2.2.1, this.2.2.2.2.1, this.2.2.2.2.2⟩
  · simp [if_neg hm]


/-! ### Preservation of the index invariant -/

theorem inv_trackEntry (st : CacheState) (h v f a : Nat) (hi : Inv st) :
    Inv (trackEntry st h v f a) := by
  obtain ⟨h1, h2, h3, h4, h5⟩ := hi
  unfold trackEntry
  cases hl : alookup st.mEntryStats h with
  | some old =>
    refine ⟨h1, ?_, ?_, ?_, ?_⟩
    · show (akeys (aupdate st.mEntryStats h _)).Nodup
      rw [akeys_aupdate_of_some _ _ _ _ hl]
      exact h2
    · intro x hx
      show x ∈ akeys (aupdate st.mEntryStats h _)
      rw [akeys_aupdate_of_some _ _ _ _ hl]
      exact h3 x hx
    · intro x hx
      rw [show akeys (aupdate st.mEntryStats h
        { valueSize := v, fileSize := f, accessTime := a }) = akeys st.mEntryStats
        from akeys_aupdate_of_some _ _ _ _ hl] at hx
      exact h4 x hx
    · show st.mTotalCacheSize - old.fileSize + f = sumFS (aupdate st.mEntryStats h _)
      have hs := sumFS_aupdate st.mEntryStats h
        { valueSize := v, fileSize := f, accessTime := a } old hl
      have hle := fileSize_le_sumFS st.mEntryStats h old hl
      simp only [] at hs
      omega
  | none =>
    have hnm : h ∉ akeys st.mEntryStats := (alookup_eq_none_iff _ _).mp hl
    have hne : h ∉ st.mEntries := fun c => hnm (h3 h c)
    refine ⟨List.nodup_cons.mpr ⟨hne, h1⟩, ?_, ?_, ?_, ?_⟩
    · rw [akeys_cons]
      exact List.nodup_cons.mpr ⟨hnm, h2⟩
    · intro x hx
      rw [akeys_cons]
      rcases List.mem_cons.mp hx with rfl | hx2
      · exact List.mem_cons_self _ _
      · exact List.mem_cons_of_mem _ (h3 x hx2)
    · intro x hx
      rw [akeys_cons] at hx
      rcases List.mem_cons.mp hx with rfl | hx2
      · exact List.mem_cons_self _ _
      · exact List.mem_cons_of_mem _ (h4 x hx2)
    · show st.mTotalCacheSize + f = sumFS ((h, _) :: st.mEntryStats)
      rw [sumFS_cons]
      simp only []
      omega

theorem inv_removeFromHotCache (st : CacheState) (h : Nat) (hi : Inv st) :
    Inv (removeFromHotCache st h) := by
  unfold removeFromHotCache
  cases alookup st.mHotCache h <;> exact hi

theorem inv_addToHotCache (st : CacheState) (h : Nat) (b : EntryFile) (sz : Nat)
    (hi : Inv st) : Inv (addToHotCache st h b sz).1 := by
  unfold addToHotCache
  split <;> exact hi

theorem inv_touchEntry (st : CacheState) (h : Nat) (hi : Inv st) :
    Inv (touchEntry st h) := by
  obtain ⟨h1, h2, h3, h4, h5⟩ := hi
  unfold touchEntry
  cases hl : alookup st.mEntryStats h with
  | some s =>
    refine ⟨h1, ?_, ?_, ?_, ?_⟩
    · show (akeys (aupdate st.mEntryStats h _)).Nodup
      rw [akeys_aupdate_of_some _ _ _ _ hl]
      exact h2
    · intro x hx
      show x ∈ akeys (aupdate st.mEntryStats h _)
      rw [akeys_aupdate_of_some _ _ _ _ hl]
      exact h3 x hx
    · intro x hx
      rw [show akeys (aupdate st.mEntryStats h { s with accessTime := st.mClock })
        = akeys st.mEntryStats from akeys_aupdate_of_some _ _ _ _ hl] at hx
      exact h4 x hx
    · show st.mTotalCacheSize = sumFS (aupdate st.mEntryStats h _)
      have hs := sumFS_aupdate st.mEntryStats h { s with accessTime := st.mClock } s hl
      simp only [] at hs
      omega
  | none => exact ⟨h1, h2, h3, h4, h5⟩

theorem inv_removeEntry (st : CacheState) (h : Nat) (hi : Inv st) :
    Inv (removeEntry st h).1 := by
  obtain ⟨h1, h2, h3, h4, h5⟩ := hi
  unfold removeEntry
  by_cases hm : h ∈ st.mEntries
  · simp only [if_pos hm]
    obtain ⟨s, hs⟩ := alookup_isSome_of_mem_akeys st.mEntryStats h (h3 h hm)
    refine ⟨?_, ?_, ?_, ?_, ?_⟩
    · rw [removeFromHotCache_mEntries]
      exact nodup_removeAll _ _ h1
    · show (akeys (eraseKey (removeFromHotCache st h).mEntryStats h)).Nodup
      rw [removeFromHotCache_mEntryStats, akeys_eraseKey]
      exact nodup_removeAll _ _ h2
    · intro x hx
      rw [removeFromHotCache_mEntries] at hx
      show x ∈ akeys (eraseKey (removeFromHotCache st h).mEntryStats h)
      rw [removeFromHotCache_mEntryStats, akeys_eraseKey, mem_removeAll]
      obtain ⟨hx1, hx2⟩ := (mem_removeAll _ _ _).mp hx
      exact ⟨h3 x hx1, hx2⟩
    · intro x hx
      rw [show akeys (eraseKey (removeFromHotCache st h).mEntryStats h)
        = removeAll (akeys st.mEntryStats) h by
          rw [removeFromHotCache_mEntryStats, akeys_eraseKey]] at hx
      rw [removeFromHotCache_mEntries, mem_removeAll]
      obtain ⟨hx1, hx2⟩ := (mem_removeAll _ _ _).mp hx
      exact ⟨h4 x hx1, hx2⟩
    · show (removeFromHotCache st h).mTotalCacheSize - getFileSize st h
        = sumFS (eraseKey (removeFromHotCache st h).mEntryStats h)
      rw [removeFromHotCache_mTotalCacheSize, removeFromHotCache_mEntryStats]
      have hg : getFileSize st h = s.fileSize := by
        unfold getFileSize getEntryStats
        rw [hs]
      have he := sumFS_eraseKey st.mEntryStats h s h2 hs
      rw [hg]
      omega
  · simp only [if_neg hm]
    exact ⟨h1, h2, h3, h4, h5⟩


/-! ### The eviction order and victim selection -/

theorem lruLe_refl (a : Nat × MultifileEntryStats) : lruLe a a := by
  unfold lruLe; omega

theorem lruLe_trans (a b c : Nat × MultifileEntryStats)
    (h1 : lruLe a b) (h2 : lruLe b c) : lruLe a c := by
  unfold lruLe at *; omega

theorem lruLe_of_not_lruLe (a b : Nat × MultifileEntryStats)
    (h : ¬ lruLe a b) : lruLe b a := by
  unfold lruLe at *; omega

theorem not_lruLt_of_lruLe (a b : Nat × MultifileEntryStats)
    (h : lruLe a b) : ¬ lruLt b a := by
  unfold lruLe at h; unfold lruLt; omega

theorem lruLt_of_lruLe_ne (a b : Nat × MultifileEntryStats)
    (h : lruLe a b) (hne : a.1 ≠ b.1) : lruLt a b := by
  unfold lruLe at h; unfold lruLt
  rcases h with h | ⟨h1, h2⟩
  · exact Or.inl h
  · exact Or.inr ⟨h1, lt_of_le_of_ne h2 hne⟩

theorem lruLt_of_lruLe_of_lruLt (a b c : Nat × MultifileEntryStats)
    (h1 : lruLe a b) (h2 : lruLt b c) : lruLt a c := by
  unfold lruLe at h1; unfold lruLt at *; omega

theorem minByLru_mem (p : Nat × MultifileEntryStats)
    (l : List (Nat × MultifileEntryStats)) : minByLru p l ∈ p :: l := by
  induction l generalizing p with
  | nil => exact List.mem_cons_self _ _
  | cons q rest ih =>
    rw [minByLru]
    by_cases hle : lruLe q p
    · rw [if_pos hle]
      rcases List.mem_cons.mp (ih q) with hq | hq
      · rw [hq]
        exact List.mem_cons_of_mem _ (List.mem_cons_self _ _)
      · exact List.mem_cons_of_mem _ (List.mem_cons_of_mem _ hq)
    · rw [if_neg hle]
      rcases List.mem_cons.mp (ih p) with hq | hq
      · rw [hq]
        exact List.mem_cons_self _ _
      · exact List.mem_cons_of_mem _ (List.mem_cons_of_mem _ hq)

theorem minByLru_le (p : Nat × MultifileEntryStats)
    (l : List (Nat × MultifileEntryStats)) :
    ∀ x ∈ p :: l, lruLe (minByLru p l) x := by
  induction l generalizing p with
  | nil =>
    intro x hx
    rcases List.mem_cons.mp hx with rfl | hx
    · exact lruLe_refl _
    · simp at hx
  | cons q rest ih =>
    intro x hx
    rw [minByLru]
    by_cases hle : lruLe q p
    · rw [if_pos hle]
      rcases List.mem_cons.mp hx with hxp | hx2
      · rw [hxp]
        exact lruLe_trans _ _ _ (ih q q (List.mem_cons_self q rest)) hle
      · exact ih q x hx2
    · rw [if_neg hle]
      have hpq : lruLe p q := lruLe_of_not_lruLe q p hle
      rcases List.mem_cons.mp hx with hxp | hx2
      · rw [hxp]
        exact ih p p (List.mem_cons_self p rest)
      · rcases List.mem_cons.mp hx2 with hxq | hx3
        · rw [hxq]
          exact lruLe_trans _ _ _ (ih p p (List.mem_cons_self p rest)) hpq
        · exact ih p x (List.mem_cons_of_mem _ hx3)

theorem selectVictim_spec (st : CacheState) (m : Nat)
    (h : selectVictim st = some m) :
    ∃ s, (m, s) ∈ st.mEntryStats ∧ ∀ p ∈ st.mEntryStats, lruLe (m, s) p := by
  unfold selectVictim at h
  cases hl : st.mEntryStats with
  | nil => rw [hl] at h; simp at h
  | cons p rest =>
    rw [hl] at h
    simp only [Option.some.injEq] at h
    refine ⟨(minByLru p rest).2, ?_, ?_⟩
    · have := minByLru_mem p rest
      rw [← h]
      simpa using this
    · intro q hq
      have := minByLru_le p rest q hq
      rw [← h]
      simpa using this

theorem selectVictim_none_iff (st : CacheState) :
    selectVictim st = none ↔ st.mEntryStats = [] := by
  unfold selectVictim
  cases st.mEntryStats <;> simp

theorem alookup_of_mem_nodup {α : Type} (l : List (Nat × α)) (k : Nat) (v : α)
    (hm : (k, v) ∈ l) (hnd : (akeys l).Nodup) : alookup l k = some v := by
  induction l with
  | nil => simp at hm
  | cons p rest ih =>
    rw [akeys_cons, List.nodup_cons] at hnd
    rcases List.mem_cons.mp hm with rfl | hm2
    · simp [alookup]
    · by_cases hp : p.1 = k
      · exfalso
        apply hnd.1
        rw [hp]
        exact mem_akeys_of_alookup rest k v (ih hm2 hnd.2)
      · rw [alookup, if_neg hp]
        exact ih hm2 hnd.2


/-! ### Lemmas about removeEntry and the eviction loop -/

theorem mem_akeys_of_pair_mem {α : Type} (l : List (Nat × α)) (p : Nat × α)
    (h : p ∈ l) : p.1 ∈ akeys l :=
  List.mem_map.mpr ⟨p, h, rfl⟩

theorem removeFromHotCache_alookup_ne (st : CacheState) (h h' : Nat)
    (hne : h' ≠ h) :
    alookup (removeFromHotCache st h).mHotCache h' = alookup st.mHotCache h' := by
  unfold removeFromHotCache
  cases alookup st.mHotCache h with
  | some hc => exact alookup_eraseKey_ne st.mHotCache h h' hne
  | none => rfl

theorem removeEntry_mEntries_pos (st : CacheState) (h : Nat)
    (hm : h ∈ st.mEntries) :
    (removeEntry st h).1.mEntries = removeAll st.mEntries h := by
  unfold removeEntry
  simp only [if_pos hm]
  rw [removeFromHotCache_mEntries]

theorem removeEntry_mEntryStats_pos (st : CacheState) (h : Nat)
    (hm : h ∈ st.mEntries) :
    (removeEntry st h).1.mEntryStats = eraseKey st.mEntryStats h := by
  unfold removeEntry
  simp only [if_pos hm]
  rw [removeFromHotCache_mEntryStats]

theorem removeEntry_mDisk_pos (st : CacheState) (h : Nat)
    (hm : h ∈ st.mEntries) :
    (removeEntry st h).1.mDisk = eraseKey st.mDisk h := by
  unfold removeEntry
  simp only [if_pos hm]
  rw [removeFromHotCache_mDisk]

theorem removeEntry_neg (st : CacheState) (h : Nat) (hm : h ∉ st.mEntries) :
    removeEntry st h = (st, false) := by
  unfold removeEntry
  simp only [if_neg hm]

theorem removeEntry_entries_subset (st : CacheState) (h h' : Nat)
    (hm : h' ∈ (removeEntry st h).1.mEntries) : h' ∈ st.mEntries := by
  by_cases hp : h ∈ st.mEntries
  · rw [removeEntry_mEntries_pos st h hp] at hm
    exact ((mem_removeAll _ _ _).mp hm).1
  · rw [removeEntry_neg st h hp] at hm
    exact hm

theorem removeEntry_not_mem (st : CacheState) (h : Nat) :
    h ∉ (removeEntry st h).1.mEntries := by
  by_cases hp : h ∈ st.mEntries
  · rw [removeEntry_mEntries_pos st h hp]
    intro c
    exact ((mem_removeAll _ _ _).mp c).2 rfl
  · rw [removeEntry_neg st h hp]
    exact hp

theorem removeEntry_stats_alookup_ne (st : CacheState) (h h' : Nat)
    (hne : h' ≠ h) :
    alookup (removeEntry st h).1.mEntryStats h' = alookup st.mEntryStats h' := by
  by_cases hp : h ∈ st.mEntries
  · rw [removeEntry_mEntryStats_pos st h hp]
    exact alookup_eraseKey_ne _ _ _ hne
  · rw [removeEntry_neg st h hp]

theorem removeEntry_hot_alookup_ne (st : CacheState) (h h' : Nat)
    (hne : h' ≠ h) :
    alookup (removeEntry st h).1.mHotCache h' = alookup st.mHotCache h' := by
  by_cases hp : h ∈ st.mEntries
  · unfold removeEntry
    simp only [if_pos hp]
    exact removeFromHotCache_alookup_ne st h h' hne
  · rw [removeEntry_neg st h hp]

theorem removeEntry_disk_alookup_ne (st : CacheState) (h h' : Nat)
    (hne : h' ≠ h) :
    alookup (removeEntry st h).1.mDisk h' = alookup st.mDisk h' := by
  by_cases hp : h ∈ st.mEntries
  · rw [removeEntry_mDisk_pos st h hp]
    exact alookup_eraseKey_ne _ _ _ hne
  · rw [removeEntry_neg st h hp]

theorem applyLRUAux_frame (limit fuel : Nat) (st : CacheState) :
    (applyLRUAux limit fuel st).mDeferredWrites = st.mDeferredWrites ∧
    (applyLRUAux limit fuel st).mTasks = st.mTasks ∧
    (applyLRUAux limit fuel st).mClock = st.mClock ∧
    (applyLRUAux limit fuel st).mMaxKeySize = st.mMaxKeySize ∧
    (applyLRUAux limit fuel st).mMaxValueSize = st.mMaxValueSize ∧
    (applyLRUAux limit fuel st).mMaxTotalSize = st.mMaxTotalSize ∧
    (applyLRUAux limit fuel st).mHotCacheLimit = st.mHotCacheLimit ∧
    (applyLRUAux limit fuel st).mHotCacheEntryLimit = st.mHotCacheEntryLimit ∧
    (applyLRUAux limit fuel st).hashOf = st.hashOf := by
  induction fuel generalizing st with
  | zero => exact ⟨rfl, rfl, rfl, rfl, rfl, rfl, rfl, rfl, rfl⟩
  | succ n ih =>
    rw [applyLRUAux]
    by_cases ht : st.mTotalCacheSize ≤ limit
    · rw [if_pos ht]
      exact ⟨rfl, rfl, rfl, rfl, rfl, rfl, rfl, rfl, rfl⟩
    · rw [if_neg ht]
      cases selectVictim st with
      | none => exact ⟨rfl, rfl, rfl, rfl, rfl, rfl, rfl, rfl, rfl⟩
      | some m =>
        have hr := ih (removeEntry st m).1
        have hc := removeEntry_config st m
        exact ⟨hr.1.trans (removeEntry_mDeferredWrites st m),
          hr.2.1.trans (removeEntry_mTasks st m),
          hr.2.2.1.trans (removeEntry_mClock st m),
          hr.2.2.2.1.trans hc.1,
          hr.2.2.2.2.1.trans hc.2.1,
          hr.2.2.2.2.2.1.trans hc.2.2.1,
          hr.2.2.2.2.2.2.1.trans hc.2.2.2.1,
          hr.2.2.2.2.2.2.2.1.trans hc.2.2.2.2.1,
          hr.2.2.2.2.2.2.2.2.trans hc.2.2.2.2.2⟩

theorem inv_applyLRUAux (limit fuel : Nat) (st : CacheState) (hi : Inv st) :
    Inv (applyLRUAux limit fuel st) := by
  induction fuel generalizing st with
  | zero => exact hi
  | succ n ih =>
    rw [applyLRUAux]
    by_cases ht : st.mTotalCacheSize ≤ limit
    · rw [if_pos ht]; exact hi
    · rw [if_neg ht]
      cases selectVictim st with
      | none => exact hi
      | some m => exact ih _ (inv_removeEntry st m hi)

theorem applyLRUAux_bound (limit fuel : Nat) (st : CacheState) (hi : Inv st)
    (hf : st.mEntryStats.length ≤ fuel) :
    (applyLRUAux limit fuel st).mTotalCacheSize ≤ limit := by
  induction fuel generalizing st with
  | zero =>
    have hnil : st.mEntryStats = [] := List.eq_nil_of_length_eq_zero (by omega)
    rw [applyLRUAux]
    have := hi.2.2.2.2
    rw [hnil] at this
    simp [sumFS] at this
    omega
  | succ n ih =>
    rw [applyLRUAux]
    by_cases ht : st.mTotalCacheSize ≤ limit
    · rw [if_pos ht]
      exact ht
    · rw [if_neg ht]
      cases hv : selectVictim st with
      | none =>
        have hnil : st.mEntryStats = [] := (selectVictim_none_iff st).mp hv
        have := hi.2.2.2.2
        rw [hnil] at this
        simp [sumFS] at this
        omega
      | some m =>
        obtain ⟨s, hms, _⟩ := selectVictim_spec st m hv
        have hak : m ∈ akeys st.mEntryStats := mem_akeys_of_pair_mem _ _ hms
        have hme : m ∈ st.mEntries := hi.2.2.2.1 m hak
        have hlen : (removeEntry st m).1.mEntryStats.length ≤ n := by
          rw [removeEntry_mEntryStats_pos st m hme]
          have := eraseKey_length_lt st.mEntryStats m hak
          omega
        exact ih _ (inv_removeEntry st m hi) hlen

theorem applyLRU_bound (st : CacheState) (limit : Nat) (hi : Inv st) :
    (applyLRU st limit).mTotalCacheSize ≤ limit :=
  applyLRUAux_bound limit st.mEntryStats.length st hi (le_refl _)

theorem applyLRUAux_entries_subset (limit fuel : Nat) (st : CacheState)
    (h : Nat) (hm : h ∈ (applyLRUAux limit fuel st).mEntries) :
    h ∈ st.mEntries := by
  induction fuel generalizing st with
  | zero => exact hm
  | succ n ih =>
    rw [applyLRUAux] at hm
    by_cases ht : st.mTotalCacheSize ≤ limit
    · rw [if_pos ht] at hm; exact hm
    · rw [if_neg ht] at hm
      cases hv : selectVictim st with
      | none => rw [hv] at hm; exact hm
      | some m =>
        rw [hv] at hm
        exact removeEntry_entries_subset st m h (ih _ hm)

theorem applyLRUAux_preserved_at (limit fuel : Nat) (st : CacheState) (h : Nat)
    (hm : h ∈ (applyLRUAux limit fuel st).mEntries) :
    alookup (applyLRUAux limit fuel st).mEntryStats h = alookup st.mEntryStats h ∧
    alookup (applyLRUAux limit fuel st).mHotCache h = alookup st.mHotCache h ∧
    alookup (applyLRUAux limit fuel st).mDisk h = alookup st.mDisk h := by
  induction fuel generalizing st with
  | zero => exact ⟨rfl, rfl, rfl⟩
  | succ n ih =>
    rw [applyLRUAux] at hm ⊢
    by_cases ht : st.mTotalCacheSize ≤ limit
    · rw [if_pos ht] at hm ⊢; exact ⟨rfl, rfl, rfl⟩
    · rw [if_neg ht] at hm ⊢
      cases hv : selectVictim st with
      | none => exact ⟨rfl, rfl, rfl⟩
      | some m =>
        rw [hv] at hm
        have hme : h ∈ (removeEntry st m).1.mEntries :=
          applyLRUAux_entries_subset limit n _ h hm
        have hne : h ≠ m := by
          intro c
          rw [c] at hme
          exact removeEntry_not_mem st m hme
        have hr := ih _ hm
        exact ⟨hr.1.trans (removeEntry_stats_alookup_ne st m h hne),
          hr.2.1.trans (removeEntry_hot_alookup_ne st m h hne),
          hr.2.2.trans (removeEntry_disk_alookup_ne st m h hne)⟩


theorem removeEntry_stats_subset (st : CacheState) (h : Nat)
    (p : Nat × MultifileEntryStats)
    (hm : p ∈ (removeEntry st h).1.mEntryStats) : p ∈ st.mEntryStats := by
  by_cases hp : h ∈ st.mEntries
  · rw [removeEntry_mEntryStats_pos st h hp] at hm
    exact mem_of_mem_eraseKey _ _ _ hm
  · rw [removeEntry_neg st h hp] at hm
    exact hm

theorem removeEntry_mem_of_ne (st : CacheState) (m h : Nat)
    (hm : h ∈ st.mEntries) (hne : h ≠ m) :
    h ∈ (removeEntry st m).1.mEntries := by
  by_cases hp : m ∈ st.mEntries
  · rw [removeEntry_mEntries_pos st m hp]
    exact (mem_removeAll _ _ _).mpr ⟨hm, hne⟩
  · rw [removeEntry_neg st m hp]
    exact hm

theorem singleton_stats_of_all_keys (l : List (Nat × MultifileEntryStats))
    (h : Nat) (s : MultifileEntryStats) (hnd : (akeys l).Nodup)
    (hall : ∀ p ∈ l, p.1 = h) (hs : alookup l h = some s) :
    sumFS l = s.fileSize := by
  cases l with
  | nil => simp [alookup] at hs
  | cons p rest =>
    have hrest : rest = [] := by
      cases rest with
      | nil => rfl
      | cons q r2 =>
        exfalso
        rw [akeys_cons, List.nodup_cons] at hnd
        apply hnd.1
        have hq : q.1 = h := hall q (List.mem_cons_of_mem _ (List.mem_cons_self _ _))
        have hp : p.1 = h := hall p (List.mem_cons_self _ _)
        rw [hp, ← hq]
        exact mem_akeys_of_pair_mem _ _ (List.mem_cons_self _ _)
    subst hrest
    have hp : p.1 = h := hall p (List.mem_cons_self _ _)
    have : p.2 = s := by simpa [alookup, hp] using hs
    rw [sumFS_cons, this]
    simp [sumFS]

theorem applyLRUAux_survives (limit fuel : Nat) (st : CacheState) (h : Nat)
    (s : MultifileEntryStats) (hi : Inv st)
    (hs : alookup st.mEntryStats h = some s)
    (hmax : ∀ p ∈ st.mEntryStats, p.1 ≠ h → lruLt p (h, s))
    (hfit : s.fileSize ≤ limit) :
    h ∈ (applyLRUAux limit fuel st).mEntries := by
  induction fuel generalizing st with
  | zero =>
    exact hi.2.2.2.1 h (mem_akeys_of_alookup _ _ _ hs)
  | succ n ih =>
    rw [applyLRUAux]
    by_cases ht : st.mTotalCacheSize ≤ limit
    · rw [if_pos ht]
      exact hi.2.2.2.1 h (mem_akeys_of_alookup _ _ _ hs)
    · rw [if_neg ht]
      cases hv : selectVictim st with
      | none =>
        have hnil : st.mEntryStats = [] := (selectVictim_none_iff st).mp hv
        rw [hnil] at hs
        simp [alookup] at hs
      | some m =>
        obtain ⟨sm, hmem, hmin⟩ := selectVictim_spec st m hv
        have hmne : m ≠ h := by
          intro c
          have hs' : alookup st.mEntryStats m = some s := by rw [c]; exact hs
          have hsm : sm = s := by
            have h2 := alookup_of_mem_nodup st.mEntryStats m sm hmem hi.2.1
            rw [h2] at hs'
            exact Option.some_inj.mp hs'
          rw [hsm, c] at hmin
          by_cases hex : ∃ p ∈ st.mEntryStats, p.1 ≠ h
          · obtain ⟨p, hp1, hp2⟩ := hex
            exact not_lruLt_of_lruLe _ _ (hmin p hp1) (hmax p hp1 hp2)
          · push_neg at hex
            have h3 := singleton_stats_of_all_keys st.mEntryStats h s hi.2.1 hex hs
            have htot := hi.2.2.2.2
            omega
        apply ih
        · exact inv_removeEntry st m hi
        · rw [removeEntry_stats_alookup_ne st m h (Ne.symm hmne)]
          exact hs
        · intro p hp hne
          exact hmax p (removeEntry_stats_subset st m p hp) hne

theorem applyLRUAux_closure (limit fuel : Nat) (st : CacheState) (hi : Inv st)
    (hE hS : Nat) (sE sS : MultifileEntryStats)
    (hEin : hE ∈ st.mEntries)
    (hEout : hE ∉ (applyLRUAux limit fuel st).mEntries)
    (hSin : hS ∈ (applyLRUAux limit fuel st).mEntries)
    (hsE : alookup st.mEntryStats hE = some sE)
    (hsS : alookup st.mEntryStats hS = some sS) :
    lruLt (hE, sE) (hS, sS) := by
  induction fuel generalizing st with
  | zero => exact absurd hEin hEout
  | succ n ih =>
    rw [applyLRUAux] at hEout hSin
    by_cases ht : st.mTotalCacheSize ≤ limit
    · rw [if_pos ht] at hEout hSin
      exact absurd hEin hEout
    · rw [if_neg ht] at hEout hSin
      cases hv : selectVictim st with
      | none =>
        rw [hv] at hEout hSin
        exact absurd hEin hEout
      | some m =>
        rw [hv] at hEout hSin
        have hSst : hS ∈ (removeEntry st m).1.mEntries :=
          applyLRUAux_entries_subset limit n _ hS hSin
        have hSne : hS ≠ m := by
          intro c
          rw [c] at hSst
          exact removeEntry_not_mem st m hSst
        by_cases hEm : hE = m
        · subst hEm
          obtain ⟨sm, hmem, hmin⟩ := selectVictim_spec st hE hv
          have hsm : sm = sE := by
            have h2 := alookup_of_mem_nodup st.mEntryStats hE sm hmem hi.2.1
            rw [h2] at hsE
            exact Option.some_inj.mp hsE
          have hle : lruLe (hE, sE) (hS, sS) := by
            rw [← hsm]
            exact hmin (hS, sS) (mem_of_alookup_eq_some _ _ _ hsS)
          exact lruLt_of_lruLe_ne _ _ hle (Ne.symm hSne)
        · apply ih (removeEntry st m).1 (inv_removeEntry st m hi)
          · exact removeEntry_mem_of_ne st m hE hEin hEm
          · exact hEout
          · exact hSin
          · rw [removeEntry_stats_alookup_ne st m hE hEm]
            exact hsE
          · rw [removeEntry_stats_alookup_ne st m hS hSne]
            exact hsS


/-! ### Lemmas about the write path -/

theorem mem_aupdate {α : Type} (l : List (Nat × α)) (k : Nat) (v : α)
    (p : Nat × α) (h : p ∈ aupdate l k v) : p = (k, v) ∨ p ∈ l := by
  induction l with
  | nil =>
    rw [aupdate] at h
    rcases List.mem_cons.mp h with h | h
    · exact Or.inl h
    · simp at h
  | cons q rest ih =>
    by_cases hq : q.1 = k
    · rw [aupdate, if_pos hq] at h
      rcases List.mem_cons.mp h with h | h
      · exact Or.inl h
      · exact Or.inr (List.mem_cons_of_mem _ h)
    · rw [aupdate, if_neg hq] at h
      rcases List.mem_cons.mp h with h | h
      · exact Or.inr (h ▸ List.mem_cons_self _ _)
      · rcases ih h with h2 | h2
        · exact Or.inl h2
        · exact Or.inr (List.mem_cons_of_mem _ h2)

theorem trackEntry_alookup_self (st : CacheState) (h v f a : Nat) :
    alookup (trackEntry st h v f a).mEntryStats h =
      some { valueSize := v, fileSize := f, accessTime := a } := by
  unfold trackEntry
  cases hl : alookup st.mEntryStats h with
  | some old => exact alookup_aupdate_self _ _ _
  | none => simp [alookup]

theorem trackEntry_alookup_ne (st : CacheState) (h v f a h' : Nat)
    (hne : h' ≠ h) :
    alookup (trackEntry st h v f a).mEntryStats h' = alookup st.mEntryStats h' := by
  unfold trackEntry
  cases hl : alookup st.mEntryStats h with
  | some old => exact alookup_aupdate_ne _ _ _ _ hne
  | none => simp [alookup, Ne.symm hne]

theorem trackEntry_mem_self (st : CacheState) (h v f a : Nat) (hi : Inv st) :
    h ∈ (trackEntry st h v f a).mEntries := by
  unfold trackEntry
  cases hl : alookup st.mEntryStats h with
  | some old =>
    exact hi.2.2.2.1 h (mem_akeys_of_alookup _ _ _ hl)
  | none => exact List.mem_cons_self _ _

theorem trackEntry_mem_mono (st : CacheState) (h v f a h' : Nat)
    (hm : h' ∈ st.mEntries) : h' ∈ (trackEntry st h v f a).mEntries := by
  unfold trackEntry
  cases alookup st.mEntryStats h with
  | some old => exact hm
  | none => exact List.mem_cons_of_mem _ hm

theorem trackEntry_stats_mem (st : CacheState) (h v f a : Nat)
    (p : Nat × MultifileEntryStats) (hm : p ∈ (trackEntry st h v f a).mEntryStats) :
    p = (h, { valueSize := v, fileSize := f, accessTime := a }) ∨
      p ∈ st.mEntryStats := by
  unfold trackEntry at hm
  cases hl : alookup st.mEntryStats h with
  | some old =>
    rw [hl] at hm
    exact mem_aupdate _ _ _ _ hm
  | none =>
    rw [hl] at hm
    rcases List.mem_cons.mp hm with h2 | h2
    · exact Or.inl h2
    · exact Or.inr h2

theorem hotEvict_keys_subset (need limit elim : Nat)
    (l : List (Nat × MultifileHotCache)) (sz x : Nat)
    (hx : x ∈ akeys (hotEvict need limit elim l sz).1) : x ∈ akeys l := by
  induction l generalizing sz with
  | nil => simpa [hotEvict] using hx
  | cons e rest ih =>
    rw [hotEvict] at hx
    by_cases hc : sz + need ≤ limit ∧ (e :: rest).length + 1 ≤ elim
    · rw [if_pos hc] at hx
      exact hx
    · rw [if_neg hc] at hx
      rw [akeys_cons]
      exact List.mem_cons_of_mem _ (ih _ hx)

theorem removeFromHotCache_not_mem (st : CacheState) (h : Nat) :
    h ∉ akeys (removeFromHotCache st h).mHotCache := by
  unfold removeFromHotCache
  cases hl : alookup st.mHotCache h with
  | some hc =>
    exact (alookup_eq_none_iff _ _).mp (alookup_eraseKey_self st.mHotCache h)
  | none => exact (alookup_eq_none_iff _ _).mp hl

theorem addToHotCache_alookup (st : CacheState) (h : Nat) (buf : EntryFile)
    (sz : Nat) (hnm : h ∉ akeys st.mHotCache) :
    alookup (addToHotCache st h buf sz).1.mHotCache h =
        some { entryFd := 0, entryBuffer := buf, entrySize := sz } ∨
      alookup (addToHotCache st h buf sz).1.mHotCache h = none := by
  unfold addToHotCache
  by_cases hc : sz ≤ st.mHotCacheLimit ∧ 1 ≤ st.mHotCacheEntryLimit
  · rw [if_pos hc]
    left
    simp only []
    have hkept : h ∉ akeys (hotEvict sz st.mHotCacheLimit st.mHotCacheEntryLimit
        st.mHotCache st.mHotCacheSize).1 :=
      fun c => hnm (hotEvict_keys_subset _ _ _ _ _ _ c)
    rw [alookup_append_of_not_mem _ _ _ hkept]
    simp [alookup]
  · rw [if_neg hc]
    right
    exact (alookup_eq_none_iff _ _).mpr hnm


/-- The provisional stats record `set` tracks for a key/value pair at
time `now`. -/
def provStats (key value : List Nat) (now : Nat) : MultifileEntryStats :=
  { valueSize := value.length
    fileSize := multifileHeaderSize + key.length + value.length
    accessTime := now }

theorem setAccepted_mDeferredWrites (st : CacheState) (key value : List Nat) :
    (setAccepted st key value).mDeferredWrites =
      (st.hashOf key, bufferFor key value) :: st.mDeferredWrites := by
  unfold setAccepted
  simp only [trackEntry_mDeferredWrites, addToHotCache_mDeferredWrites,
    removeFromHotCache_mDeferredWrites]

theorem setAccepted_mTasks (st : CacheState) (key value : List Nat) :
    (setAccepted st key value).mTasks = st.mTasks ++
      [(DeferredTask.ofCommand TaskCommand.WriteToDisk).initWriteToDisk
        (st.hashOf key) (bufferFor key value)
        (multifileHeaderSize + key.length + value.length)] := by
  unfold setAccepted
  simp only [trackEntry_mTasks, addToHotCache_mTasks, removeFromHotCache_mTasks]

theorem setAccepted_mClock (st : CacheState) (key value : List Nat) :
    (setAccepted st key value).mClock = st.mClock + 1 := by
  unfold setAccepted
  simp only [trackEntry_mClock, addToHotCache_mClock, removeFromHotCache_mClock]

theorem setAccepted_mDisk (st : CacheState) (key value : List Nat) :
    (setAccepted st key value).mDisk = st.mDisk := by
  unfold setAccepted
  simp only [trackEntry_mDisk, addToHotCache_mDisk, removeFromHotCache_mDisk]


theorem removeFromHotCache_mMaxKeySize (st : CacheState) (h : Nat) :
    (removeFromHotCache st h).mMaxKeySize = st.mMaxKeySize := by
  unfold removeFromHotCache; cases alookup st.mHotCache h <;> rfl

theorem addToHotCache_mMaxKeySize (st : CacheState) (h : Nat) (b : EntryFile) (sz : Nat) :
    (addToHotCache st h b sz).1.mMaxKeySize = st.mMaxKeySize := by
  unfold addToHotCache; split <;> rfl

theorem trackEntry_mMaxKeySize (st : CacheState) (h v f a : Nat) :
    (trackEntry st h v f a).mMaxKeySize = st.mMaxKeySize := by
  unfold trackEntry; cases alookup st.mEntryStats h <;> rfl

theorem removeFromHotCache_mMaxValueSize (st : CacheState) (h : Nat) :
    (removeFromHotCache st h).mMaxValueSize = st.mMaxValueSize := by
  unfold removeFromHotCache; cases alookup st.mHotCache h <;> rfl

theorem addToHotCache_mMaxValueSize (st : CacheState) (h : Nat) (b : EntryFile) (sz : Nat) :
    (addToHotCache st h b sz).1.mMaxValueSize = st.mMaxValueSize := by
  unfold addToHotCache; split <;> rfl

theorem trackEntry_mMaxValueSize (st : CacheState) (h v f a : Nat) :
    (trackEntry st h v f a).mMaxValueSize = st.mMaxValueSize := by
  unfold trackEntry; cases alookup st.mEntryStats h <;> rfl

theorem removeFromHotCache_mMaxTotalSize (st : CacheState) (h : Nat) :
    (removeFromHotCache st h).mMaxTotalSize = st.mMaxTotalSize := by
  unfold removeFromHotCache; cases alookup st.mHotCache h <;> rfl

theorem addToHotCache_mMaxTotalSize (st : CacheState) (h : Nat) (b : EntryFile) (sz : Nat) :
    (addToHotCache st h b sz).1.mMaxTotalSize = st.mMaxTotalSize := by
  unfold addToHotCache; split <;> rfl

theorem trackEntry_mMaxTotalSize (st : CacheState) (h v f a : Nat) :
    (trackEntry st h v f a).mMaxTotalSize = st.mMaxTotalSize := by
  unfold trackEntry; cases alookup st.mEntryStats h <;> rfl

theorem removeFromHotCache_mHotCacheLimit (st : CacheState) (h : Nat) :
    (removeFromHotCache st h).mHotCacheLimit = st.mHotCacheLimit := by
  unfold removeFromHotCache; cases alookup st.mHotCache h <;> rfl

theorem addToHotCache_mHotCacheLimit (st : CacheState) (h : Nat) (b : EntryFile) (sz : Nat) :
    (addToHotCache st h b sz).1.mHotCacheLimit = st.mHotCacheLimit := by
  unfold addToHotCache; split <;> rfl

theorem trackEntry_mHotCacheLimit (st : CacheState) (h v f a : Nat) :
    (trackEntry st h v f a).mHotCacheLimit = st.mHotCacheLimit := by
  unfold trackEntry; cases alookup st.mEntryStats h <;> rfl

theorem removeFromHotCache_mHotCacheEntryLimit (st : CacheState) (h : Nat) :
    (removeFromHotCache st h).mHotCacheEntryLimit = st.mHotCacheEntryLimit := by
  unfold removeFromHotCache; cases alookup st.mHotCache h <;> rfl

theorem addToHotCache_mHotCacheEntryLimit (st : CacheState) (h : Nat) (b : EntryFile) (sz : Nat) :
    (addToHotCache st h b sz).1.mHotCacheEntryLimit = st.mHotCacheEntryLimit := by
  unfold addToHotCache; split <;> rfl

theorem trackEntry_mHotCacheEntryLimit (st : CacheState) (h v f a : Nat) :
    (trackEntry st h v f a).mHotCacheEntryLimit = st.mHotCacheEntryLimit := by
  unfold trackEntry; cases alookup st.mEntryStats h <;> rfl

theorem removeFromHotCache_hashOf (st : CacheState) (h : Nat) :
    (removeFromHotCache st h).hashOf = st.hashOf := by
  unfold removeFromHotCache; cases alookup st.mHotCache h <;> rfl

theorem addToHotCache_hashOf (st : CacheState) (h : Nat) (b : EntryFile) (sz : Nat) :
    (addToHotCache st h b sz).1.hashOf = st.hashOf := by
  unfold addToHotCache; split <;> rfl

theorem trackEntry_hashOf (st : CacheState) (h v f a : Nat) :
    (trackEntry st h v f a).hashOf = st.hashOf := by
  unfold trackEntry; cases alookup st.mEntryStats h <;> rfl

theorem setAccepted_config (st : CacheState) (key value : List Nat) :
    (setAccepted st key value).mMaxKeySize = st.mMaxKeySize ∧
    (setAccepted st key value).mMaxValueSize = st.mMaxValueSize ∧
    (setAccepted st key value).mMaxTotalSize = st.mMaxTotalSize ∧
    (setAccepted st key value).mHotCacheLimit = st.mHotCacheLimit ∧
    (setAccepted st key value).mHotCacheEntryLimit = st.mHotCacheEntryLimit ∧
    (setAccepted st key value).hashOf = st.hashOf := by
  unfold setAccepted
  refine ⟨?_, ?_, ?_, ?_, ?_, ?_⟩ <;>
    simp only [trackEntry_mMaxKeySize, trackEntry_mMaxValueSize,
      trackEntry_mMaxTotalSize, trackEntry_mHotCacheLimit,
      trackEntry_mHotCacheEntryLimit, trackEntry_hashOf,
      addToHotCache_mMaxKeySize, addToHotCache_mMaxValueSize,
      addToHotCache_mMaxTotalSize, addToHotCache_mHotCacheLimit,
      addToHotCache_mHotCacheEntryLimit, addToHotCache_hashOf,
      removeFromHotCache_mMaxKeySize, removeFromHotCache_mMaxValueSize,
      removeFromHotCache_mMaxTotalSize, removeFromHotCache_mHotCacheLimit,
      removeFromHotCache_mHotCacheEntryLimit, removeFromHotCache_hashOf]

theorem inv_setAccepted (st : CacheState) (key value : List Nat) (hi : Inv st) :
    Inv (setAccepted st key value) := by
  unfold setAccepted
  exact inv_trackEntry _ _ _ _ _
    (inv_addToHotCache _ _ _ _ (inv_removeFromHotCache _ _ hi))

theorem setAccepted_stats_self (st : CacheState) (key value : List Nat) :
    alookup (setAccepted st key value).mEntryStats (st.hashOf key) =
      some (provStats key value st.mClock) := by
  unfold setAccepted provStats
  exact trackEntry_alookup_self _ _ _ _ _

theorem setAccepted_mem_self (st : CacheState) (key value : List Nat)
    (hi : Inv st) : st.hashOf key ∈ (setAccepted st key value).mEntries := by
  unfold setAccepted
  exact trackEntry_mem_self _ _ _ _ _
    (inv_addToHotCache _ _ _ _ (inv_removeFromHotCache _ _ hi))

theorem setAccepted_hot_alookup (st : CacheState) (key value : List Nat) :
    alookup (setAccepted st key value).mHotCache (st.hashOf key) =
        some { entryFd := 0, entryBuffer := bufferFor key value,
               entrySize := multifileHeaderSize + key.length + value.length } ∨
      alookup (setAccepted st key value).mHotCache (st.hashOf key) = none := by
  unfold setAccepted
  simp only [trackEntry_mHotCache]
  exact addToHotCache_alookup _ _ _ _
    (removeFromHotCache_not_mem st (st.hashOf key))

theorem setAccepted_stats_mem (st : CacheState) (key value : List Nat)
    (p : Nat × MultifileEntryStats)
    (hm : p ∈ (setAccepted st key value).mEntryStats) :
    p = (st.hashOf key, provStats key value st.mClock) ∨ p ∈ st.mEntryStats := by
  unfold setAccepted at hm
  have := trackEntry_stats_mem _ _ _ _ _ p hm
  simpa [provStats, addToHotCache_mEntryStats, removeFromHotCache_mEntryStats]
    using this

theorem clockInv_setAccepted (st : CacheState) (key value : List Nat)
    (hc : ClockInv st) : ClockInv (setAccepted st key value) := by
  intro p hp
  rw [setAccepted_mClock]
  rcases setAccepted_stats_mem st key value p hp with h2 | h2
  · rw [h2]
    simp [provStats]
  · have := hc p h2
    omega

theorem setAccepted_strict_max (st : CacheState) (key value : List Nat)
    (hc : ClockInv st) :
    ∀ p ∈ (setAccepted st key value).mEntryStats,
      p.1 ≠ st.hashOf key →
      lruLt p (st.hashOf key, provStats key value st.mClock) := by
  intro p hp hne
  rcases setAccepted_stats_mem st key value p hp with h2 | h2
  · exfalso
    apply hne
    rw [h2]
  · have := hc p h2
    unfold lruLt
    left
    simpa [provStats] using this


/-! ### Lemmas about the read path -/

theorem get_miss_not_mem (st : CacheState) (key : List Nat) (cap : Nat)
    (hnm : st.hashOf key ∉ st.mEntries) :
    get st key cap = (st, { retVal := 0, written := none }) := by
  unfold get
  rw [if_neg hnm]

theorem get_hit_full (st : CacheState) (key : List Nat) (cap : Nat)
    (buf : EntryFile) (hmem : st.hashOf key ∈ st.mEntries)
    (hlb : lookupBuffer st (st.hashOf key) = some buf)
    (hks : buf.header.keySize = key.length) (hkb : buf.keyBytes = key)
    (hcap : ¬ cap < buf.header.valueSize) :
    get st key cap = (touchEntry st (st.hashOf key),
      { retVal := buf.header.valueSize, written := some buf.valueBytes }) := by
  unfold get
  rw [if_pos hmem]
  simp only [hlb]
  rw [if_pos (And.intro hks hkb), if_neg hcap]

theorem get_hit_probe (st : CacheState) (key : List Nat) (cap : Nat)
    (buf : EntryFile) (hmem : st.hashOf key ∈ st.mEntries)
    (hlb : lookupBuffer st (st.hashOf key) = some buf)
    (hks : buf.header.keySize = key.length) (hkb : buf.keyBytes = key)
    (hcap : cap < buf.header.valueSize) :
    get st key cap = (touchEntry st (st.hashOf key),
      { retVal := buf.header.valueSize, written := none }) := by
  unfold get
  rw [if_pos hmem]
  simp only [hlb]
  rw [if_pos (And.intro hks hkb), if_pos hcap]

theorem get_miss_mismatch (st : CacheState) (key : List Nat) (cap : Nat)
    (buf : EntryFile) (hmem : st.hashOf key ∈ st.mEntries)
    (hlb : lookupBuffer st (st.hashOf key) = some buf)
    (hmis : ¬ (buf.header.keySize = key.length ∧ buf.keyBytes = key)) :
    get st key cap = (st, { retVal := 0, written := none }) := by
  unfold get
  rw [if_pos hmem]
  simp only [hlb]
  rw [if_neg hmis]


/-! ### Lemmas about the deferred write pipeline -/

theorem processTask_not_write (st : CacheState) (t : DeferredTask)
    (hc : t.mCommand ≠ TaskCommand.WriteToDisk) : processTask st t = st := by
  unfold processTask
  cases hcc : t.mCommand with
  | WriteToDisk => exact absurd hcc hc
  | Invalid => rfl
  | Exit => rfl

theorem processTask_write_degenerate (st : CacheState) (t : DeferredTask)
    (hp : t.mFullPath = none ∨ t.mBuffer = none) : processTask st t = st := by
  unfold processTask
  cases hcc : t.mCommand with
  | Invalid => rfl
  | Exit => rfl
  | WriteToDisk =>
    cases hf : t.mFullPath with
    | none => rfl
    | some q =>
      cases hb : t.mBuffer with
      | none => rfl
      | some b =>
        exfalso
        rcases hp with hp | hp
        · rw [hf] at hp
          exact Option.noConfusion hp
        · rw [hb] at hp
          exact Option.noConfusion hp

theorem processTask_write_mDisk (st : CacheState) (t : DeferredTask)
    (q : Nat) (b : EntryFile) (hc : t.mCommand = TaskCommand.WriteToDisk)
    (hq : t.mFullPath = some q) (hb : t.mBuffer = some b) :
    (processTask st t).mDisk = aupdate st.mDisk q b := by
  unfold processTask
  rw [hc, hq, hb]
  simp only [trackEntry_mDisk]

theorem processTask_write_mDeferredWrites (st : CacheState) (t : DeferredTask)
    (q : Nat) (b : EntryFile) (hc : t.mCommand = TaskCommand.WriteToDisk)
    (hq : t.mFullPath = some q) (hb : t.mBuffer = some b) :
    (processTask st t).mDeferredWrites =
      erasePair (st.mDeferredWrites) (q, b) := by
  unfold processTask
  rw [hc, hq, hb]
  simp only [trackEntry_mDeferredWrites]

theorem processTask_mHotCache (st : CacheState) (t : DeferredTask) :
    (processTask st t).mHotCache = st.mHotCache := by
  unfold processTask
  cases t.mCommand with
  | Invalid => rfl
  | Exit => rfl
  | WriteToDisk =>
    cases t.mFullPath with
    | none => rfl
    | some q =>
      cases t.mBuffer with
      | none => rfl
      | some b => simp only [trackEntry_mHotCache]

theorem processTask_mTasks (st : CacheState) (t : DeferredTask) :
    (processTask st t).mTasks = st.mTasks := by
  unfold processTask
  cases t.mCommand with
  | Invalid => rfl
  | Exit => rfl
  | WriteToDisk =>
    cases t.mFullPath with
    | none => rfl
    | some q =>
      cases t.mBuffer with
      | none => rfl
      | some b => simp only [trackEntry_mTasks]

theorem processTask_mClock (st : CacheState) (t : DeferredTask) :
    (processTask st t).mClock = st.mClock := by
  unfold processTask
  cases t.mCommand with
  | Invalid => rfl
  | Exit => rfl
  | WriteToDisk =>
    cases t.mFullPath with
    | none => rfl
    | some q =>
      cases t.mBuffer with
      | none => rfl
      | some b => simp only [trackEntry_mClock]

theorem inv_processTask (st : CacheState) (t : DeferredTask) (hi : Inv st) :
    Inv (processTask st t) := by
  unfold processTask
  cases t.mCommand with
  | Invalid => exact hi
  | Exit => exact hi
  | WriteToDisk =>
    cases t.mFullPath with
    | none => exact hi
    | some q =>
      cases t.mBuffer with
      | none => exact hi
      | some b => exact inv_trackEntry _ _ _ _ _ hi

theorem drainTasks_mTasks (ts : List DeferredTask) (st : CacheState) :
    (drainTasks ts st).mTasks = st.mTasks := by
  induction ts generalizing st with
  | nil => rfl
  | cons t rest ih => rw [drainTasks, ih, processTask_mTasks]

theorem drainTasks_mHotCache (ts : List DeferredTask) (st : CacheState) :
    (drainTasks ts st).mHotCache = st.mHotCache := by
  induction ts generalizing st with
  | nil => rfl
  | cons t rest ih => rw [drainTasks, ih, processTask_mHotCache]

theorem inv_drainTasks (ts : List DeferredTask) (st : CacheState) (hi : Inv st) :
    Inv (drainTasks ts st) := by
  induction ts generalizing st with
  | nil => exact hi
  | cons t rest ih => exact ih _ (inv_processTask st t hi)

theorem drainTasks_disk (ts : List DeferredTask) (st : CacheState) (p : Nat) :
    alookup (drainTasks ts st).mDisk p =
      (match lastWriteFor ts p with
       | some b => some b
       | none => alookup st.mDisk p) := by
  induction ts generalizing st with
  | nil => rfl
  | cons t rest ih =>
    rw [drainTasks, lastWriteFor, ih]
    cases hrest : lastWriteFor rest p with
    | some b => rfl
    | none =>
      by_cases hc : t.mCommand = TaskCommand.WriteToDisk
      · cases hq : t.mFullPath with
        | none =>
          rw [processTask_write_degenerate st t (Or.inl hq)]
          simp
        | some q =>
          cases hb : t.mBuffer with
          | none =>
            rw [processTask_write_degenerate st t (Or.inr hb)]
            simp
          | some b =>
            rw [processTask_write_mDisk st t q b hc hq hb]
            by_cases hqp : q = p
            · subst hqp
              rw [if_pos (And.intro hc rfl), alookup_aupdate_self]
            · have hcond : ¬ (t.mCommand = TaskCommand.WriteToDisk ∧
                  (some q : Option Nat) = some p) := by
                rintro ⟨_, c⟩
                exact hqp (Option.some_inj.mp c)
              rw [if_neg hcond, alookup_aupdate_ne _ _ _ _ (Ne.symm hqp)]
      · rw [processTask_not_write st t hc]
        have hcond : ¬ (t.mCommand = TaskCommand.WriteToDisk ∧
            t.mFullPath = some p) := fun c => hc c.1
        rw [if_neg hcond]

theorem lookupBuffer_eq_of_fields (st st' : CacheState) (h : Nat)
    (hh : st'.mHotCache = st.mHotCache)
    (hd : st'.mDeferredWrites = st.mDeferredWrites)
    (hk : st'.mDisk = st.mDisk) : lookupBuffer st' h = lookupBuffer st h := by
  unfold lookupBuffer
  rw [hh, hd, hk]

theorem touchEntry_alookup_self (st : CacheState) (h : Nat)
    (s : MultifileEntryStats) (hl : alookup st.mEntryStats h = some s) :
    alookup (touchEntry st h).mEntryStats h =
      some { s with accessTime := st.mClock } := by
  unfold touchEntry
  rw [hl]
  exact alookup_aupdate_self _ _ _


theorem applyLRU_mDeferredWrites (st : CacheState) (limit : Nat) :
    (applyLRU st limit).mDeferredWrites = st.mDeferredWrites :=
  (applyLRUAux_frame limit st.mEntryStats.length st).1

theorem applyLRU_mTasks (st : CacheState) (limit : Nat) :
    (applyLRU st limit).mTasks = st.mTasks :=
  (applyLRUAux_frame limit st.mEntryStats.length st).2.1

theorem applyLRU_mClock (st : CacheState) (limit : Nat) :
    (applyLRU st limit).mClock = st.mClock :=
  (applyLRUAux_frame limit st.mEntryStats.length st).2.2.1

theorem applyLRU_hashOf (st : CacheState) (limit : Nat) :
    (applyLRU st limit).hashOf = st.hashOf :=
  (applyLRUAux_frame limit st.mEntryStats.length st).2.2.2.2.2.2.2.2

theorem applyLRU_mMaxTotalSize (st : CacheState) (limit : Nat) :
    (applyLRU st limit).mMaxTotalSize = st.mMaxTotalSize :=
  (applyLRUAux_frame limit st.mEntryStats.length st).2.2.2.2.2.1

theorem inv_applyLRU (st : CacheState) (limit : Nat) (hi : Inv st) :
    Inv (applyLRU st limit) :=
  inv_applyLRUAux limit st.mEntryStats.length st hi

theorem applyLRU_preserved_at (st : CacheState) (limit : Nat) (h : Nat)
    (hm : h ∈ (applyLRU st limit).mEntries) :
    alookup (applyLRU st limit).mEntryStats h = alookup st.mEntryStats h ∧
    alookup (applyLRU st limit).mHotCache h = alookup st.mHotCache h ∧
    alookup (applyLRU st limit).mDisk h = alookup st.mDisk h :=
  applyLRUAux_preserved_at limit st.mEntryStats.length st h hm

/-! ### Composite facts about an accepted set -/

/-- The `WriteToDisk` task an accepted `set` queues. -/
def writeTaskFor (st : CacheState) (key value : List Nat) : DeferredTask :=
  (DeferredTask.ofCommand TaskCommand.WriteToDisk).initWriteToDisk
    (st.hashOf key) (bufferFor key value)
    (multifileHeaderSize + key.length + value.length)

theorem set_accepted_eq (st : CacheState) (key value : List Nat)
    (hkv : ¬ (key.length > st.mMaxKeySize ∨ value.length > st.mMaxValueSize)) :
    set st key value =
      (if (setAccepted st key value).mTotalCacheSize >
          (setAccepted st key value).mMaxTotalSize then
        applyLRU (setAccepted st key value) (setAccepted st key value).mMaxTotalSize
      else setAccepted st key value) := by
  unfold set
  rw [if_neg hkv]

theorem set_mDeferredWrites (st : CacheState) (key value : List Nat)
    (hkv : ¬ (key.length > st.mMaxKeySize ∨ value.length > st.mMaxValueSize)) :
    (set st key value).mDeferredWrites =
      (st.hashOf key, bufferFor key value) :: st.mDeferredWrites := by
  rw [set_accepted_eq st key value hkv]
  split
  · rw [applyLRU_mDeferredWrites, setAccepted_mDeferredWrites]
  · rw [setAccepted_mDeferredWrites]

theorem set_mTasks (st : CacheState) (key value : List Nat)
    (hkv : ¬ (key.length > st.mMaxKeySize ∨ value.length > st.mMaxValueSize)) :
    (set st key value).mTasks = st.mTasks ++ [writeTaskFor st key value] := by
  rw [set_accepted_eq st key value hkv]
  split
  · rw [applyLRU_mTasks, setAccepted_mTasks]
    rfl
  · rw [setAccepted_mTasks]
    rfl

theorem set_mClock (st : CacheState) (key value : List Nat)
    (hkv : ¬ (key.length > st.mMaxKeySize ∨ value.length > st.mMaxValueSize)) :
    (set st key value).mClock = st.mClock + 1 := by
  rw [set_accepted_eq st key value hkv]
  split
  · rw [applyLRU_mClock, setAccepted_mClock]
  · rw [setAccepted_mClock]

theorem set_hashOf (st : CacheState) (key value : List Nat)
    (hkv : ¬ (key.length > st.mMaxKeySize ∨ value.length > st.mMaxValueSize)) :
    (set st key value).hashOf = st.hashOf := by
  rw [set_accepted_eq st key value hkv]
  split
  · rw [applyLRU_hashOf, (setAccepted_config st key value).2.2.2.2.2]
  · rw [(setAccepted_config st key value).2.2.2.2.2]

theorem inv_set (st : CacheState) (key value : List Nat) (hi : Inv st) :
    Inv (set st key value) := by
  by_cases hkv : key.length > st.mMaxKeySize ∨ value.length > st.mMaxValueSize
  · unfold set
    rw [if_pos hkv]
    exact hi
  · rw [set_accepted_eq st key value hkv]
    split
    · exact inv_applyLRU _ _ (inv_setAccepted st key value hi)
    · exact inv_setAccepted st key value hi

theorem set_entries_cases (st : CacheState) (key value : List Nat)
    (hkv : ¬ (key.length > st.mMaxKeySize ∨ value.length > st.mMaxValueSize))
    (hmem : st.hashOf key ∈ (set st key value).mEntries) :
    alookup (set st key value).mEntryStats (st.hashOf key) =
        some (provStats key value st.mClock) ∧
      (alookup (set st key value).mHotCache (st.hashOf key) =
          some { entryFd := 0, entryBuffer := bufferFor key value,
                 entrySize := multifileHeaderSize + key.length + value.length } ∨
        alookup (set st key value).mHotCache (st.hashOf key) = none) := by
  rw [set_accepted_eq st key value hkv] at hmem ⊢
  by_cases hb : (setAccepted st key value).mTotalCacheSize >
      (setAccepted st key value).mMaxTotalSize
  · rw [if_pos hb] at hmem ⊢
    have hpre := applyLRU_preserved_at _ _ _ hmem
    refine ⟨hpre.1.trans (setAccepted_stats_self st key value), ?_⟩
    rcases setAccepted_hot_alookup st key value with h2 | h2
    · exact Or.inl (hpre.2.1.trans h2)
    · exact Or.inr (hpre.2.1.trans h2)
  · rw [if_neg hb] at hmem ⊢
    exact ⟨setAccepted_stats_self st key value, setAccepted_hot_alookup st key value⟩

theorem set_lookupBuffer (st : CacheState) (key value : List Nat)
    (hkv : ¬ (key.length > st.mMaxKeySize ∨ value.length > st.mMaxValueSize))
    (hmem : st.hashOf key ∈ (set st key value).mEntries) :
    lookupBuffer (set st key value) (st.hashOf key) =
      some (bufferFor key value) := by
  obtain ⟨hstats, hhot⟩ := set_entries_cases st key value hkv hmem
  unfold lookupBuffer
  rcases hhot with h2 | h2
  · rw [h2]
  · rw [h2, set_mDeferredWrites st key value hkv]
    simp [alookup]

theorem set_survives (st : CacheState) (key value : List Nat) (hi : Inv st)
    (hck : ClockInv st)
    (hkv : ¬ (key.length > st.mMaxKeySize ∨ value.length > st.mMaxValueSize))
    (hfit : multifileHeaderSize + key.length + value.length ≤ st.mMaxTotalSize) :
    st.hashOf key ∈ (set st key value).mEntries := by
  rw [set_accepted_eq st key value hkv]
  by_cases hb : (setAccepted st key value).mTotalCacheSize >
      (setAccepted st key value).mMaxTotalSize
  · rw [if_pos hb]
    apply applyLRUAux_survives _ _ _ _ (provStats key value st.mClock)
      (inv_setAccepted st key value hi) (setAccepted_stats_self st key value)
      (setAccepted_strict_max st key value hck)
    show (provStats key value st.mClock).fileSize ≤
      (setAccepted st key value).mMaxTotalSize
    rw [(setAccepted_config st key value).2.2.1]
    exact hfit
  · rw [if_neg hb]
    exact setAccepted_mem_self st key value hi


/-! ### Invariants along public runs -/

theorem inv_initState (hashOf : List Nat → Nat) (maxTotal maxHot : Nat)
    (dir : String) (maxK maxV hotN : Nat) :
    Inv (initState hashOf maxTotal maxHot dir maxK maxV hotN) := by
  refine ⟨List.nodup_nil, List.nodup_nil, ?_, ?_, rfl⟩ <;>
    intro x hx <;> simp [initState, akeys] at hx

theorem clockInv_initState (hashOf : List Nat → Nat) (maxTotal maxHot : Nat)
    (dir : String) (maxK maxV hotN : Nat) :
    ClockInv (initState hashOf maxTotal maxHot dir maxK maxV hotN) := by
  intro p hp
  simp [initState] at hp

theorem inv_waitForWorkComplete (st : CacheState) (hi : Inv st) :
    Inv (waitForWorkComplete st) :=
  inv_drainTasks st.mTasks _ hi

theorem inv_trimCache (st : CacheState) (limit : Nat) (hi : Inv st) :
    Inv (trimCache st limit) :=
  inv_applyLRU _ _ (inv_waitForWorkComplete st hi)

theorem get_fst_cases (st : CacheState) (key : List Nat) (cap : Nat) :
    (get st key cap).1 = st ∨
      (get st key cap).1 = touchEntry st (st.hashOf key) := by
  unfold get
  by_cases hmem : st.hashOf key ∈ st.mEntries
  · rw [if_pos hmem]
    cases lookupBuffer st (st.hashOf key) with
    | none => exact Or.inl rfl
    | some buf =>
      dsimp only
      by_cases hk : buf.header.keySize = key.length ∧ buf.keyBytes = key
      · rw [if_pos hk]
        by_cases hc : cap < buf.header.valueSize
        · rw [if_pos hc]
          exact Or.inr rfl
        · rw [if_neg hc]
          exact Or.inr rfl
      · rw [if_neg hk]
        exact Or.inl rfl
  · rw [if_neg hmem]
    exact Or.inl rfl

theorem inv_get (st : CacheState) (key : List Nat) (cap : Nat) (hi : Inv st) :
    Inv (get st key cap).1 := by
  rcases get_fst_cases st key cap with h2 | h2 <;> rw [h2]
  · exact hi
  · exact inv_touchEntry st _ hi

theorem inv_applyOp (st : CacheState) (op : CacheOp) (hi : Inv st) :
    Inv (applyOp st op) := by
  cases op with
  | opSet k v => exact inv_set st k v hi
  | opGet k c => exact inv_get st k c hi
  | opTrackEntry h v f a => exact inv_trackEntry st h v f a hi
  | opRemoveEntry h => exact inv_removeEntry st h hi
  | opApplyLRU l => exact inv_applyLRU st l hi
  | opTrimCache l => exact inv_trimCache st l hi

theorem inv_runOps (st : CacheState) (ops : List CacheOp) (hi : Inv st) :
    Inv (runOps st ops) := by
  induction ops generalizing st with
  | nil => exact hi
  | cons op rest ih => exact ih _ (inv_applyOp st op hi)

theorem inv_foldl_set (calls : List (List Nat × List Nat)) (st : CacheState)
    (hi : Inv st) :
    Inv (calls.foldl (fun s kv => set s kv.1 kv.2) st) := by
  induction calls generalizing st with
  | nil => exact hi
  | cons kv rest ih => exact ih _ (inv_set st kv.1 kv.2 hi)

/-! ### Concrete states used by the witnesses -/

/-- A concrete key-hash function: the sum of the key bytes (collisions
are easy to engineer, e.g. permuted keys). -/
def demoHash : List Nat → Nat := fun k => k.foldl (fun a b => a + b) 0

/-- A small freshly constructed cache. -/
def S0 : CacheState := initState demoHash 100 100 "egl-cache" 8 8 4

/-- `S0` after two accepted writes. -/
def S1 : CacheState := set (set S0 [1] [2]) [3] [4, 5]

/-- `S0` after one accepted write of a three-byte value. -/
def S2 : CacheState := set S0 [1] [7, 8, 9]


/-! ### Claim theorems -/

/-- C10: every `DeferredTask` built through the declared construction
path — the constructor taking only a `TaskCommand`, optionally followed
by `initWriteToDisk`, which assigns `mCommand`, `mFullPath`, `mBuffer`
and `mBufferSize` but never `mEntryHash` — has its `mEntryHash` member
unassigned, so in the total embedding `getEntryHash` returns `none` for
every such task. -/
theorem c10_task_entry_hash_unset (c : TaskCommand) (fullPath : Nat)
    (buffer : EntryFile) (bufferSize : Nat) :
    (DeferredTask.ofCommand c).getEntryHash = none ∧
    ((DeferredTask.ofCommand c).initWriteToDisk fullPath buffer
      bufferSize).getEntryHash = none :=
  ⟨rfl, rfl⟩

/-- C7: a `set` whose key size exceeds `mMaxKeySize` or whose value size
exceeds `mMaxValueSize` is a silent no-op — the entire state, hence the
index, task queue and `mTotalCacheSize`, is unchanged — and a subsequent
`get` for that key (whose hash is not otherwise indexed) is a miss. -/
theorem c7_oversize_rejection (st : CacheState) (key value : List Nat)
    (cap : Nat)
    (hover : key.length > st.mMaxKeySize ∨ value.length > st.mMaxValueSize)
    (hnm : st.hashOf key ∉ st.mEntries) :
    set st key value = st ∧
    get (set st key value) key cap = (st, { retVal := 0, written := none }) := by
  have hset : set st key value = st := by
    unfold set
    rw [if_pos hover]
  refine ⟨hset, ?_⟩
  rw [hset]
  exact get_miss_not_mem st key cap hnm

theorem c7_oversize_rejection_witness :
    set S0 [1, 2, 3, 4, 5, 6, 7, 8, 9] [1] = S0 ∧
    get (set S0 [1, 2, 3, 4, 5, 6, 7, 8, 9] [1]) [1, 2, 3, 4, 5, 6, 7, 8, 9] 4 =
      (S0, { retVal := 0, written := none }) :=
  c7_oversize_rejection S0 [1, 2, 3, 4, 5, 6, 7, 8, 9] [1] 4 (by decide)
    (by decide)

/-- The stats record the index bookkeeping builds for a logical entry
with the four attributes `(keySize, valueSize, fileSize, accessTime)`:
`trackEntry`'s declared parameter list (source lines 100-101) carries no
key size, so the record is a function of the last three attributes
alone. -/
def statsRecordOf (keySize valueSize fileSize accessTime : Nat) :
    MultifileEntryStats :=
  { valueSize := valueSize, fileSize := fileSize, accessTime := accessTime }

/-- C9 (counterexample): no reading of the stats record recovers the
entry's `keySize` — two entries with key sizes 0 and 5 but identical
`(valueSize, fileSize, accessTime)` produce the same record, so the
record does not carry all four attributes. -/
theorem c9_counterexample :
    ¬ ∃ ks : MultifileEntryStats → Nat,
      ∀ keySize valueSize fileSize accessTime : Nat,
        ks (statsRecordOf keySize valueSize fileSize accessTime) = keySize := by
  rintro ⟨ks, hks⟩
  have h0 := hks 0 1 2 3
  have h5 := hks 5 1 2 3
  rw [show statsRecordOf 0 1 2 3 = statsRecordOf 5 1 2 3 from rfl] at h0
  omega

/-- C9 (amended): the per-entry bookkeeping record carries exactly three
attributes — `valueSize`, `fileSize` and `accessTime`; `keySize` is not
stored, but for an entry recorded by an accepted `set` the recorded
`fileSize` equals header size + keySize + valueSize, so the key size is
derivable from the record as `fileSize - valueSize - headerSize` without
reading the on-disk file header. -/
theorem c9_stats_fields (st : CacheState) (key value : List Nat)
    (hi : Inv st) (hck : ClockInv st)
    (hkv : ¬ (key.length > st.mMaxKeySize ∨ value.length > st.mMaxValueSize))
    (hfit : multifileHeaderSize + key.length + value.length ≤ st.mMaxTotalSize) :
    getEntryStats (set st key value) (st.hashOf key) =
      some (provStats key value st.mClock) ∧
    (provStats key value st.mClock).valueSize = value.length ∧
    (provStats key value st.mClock).fileSize =
      multifileHeaderSize + key.length + value.length ∧
    (provStats key value st.mClock).accessTime = st.mClock ∧
    (provStats key value st.mClock).fileSize -
      (provStats key value st.mClock).valueSize - multifileHeaderSize =
      key.length := by
  have hmem := set_survives st key value hi hck hkv hfit
  have hstats := (set_entries_cases st key value hkv hmem).1
  refine ⟨hstats, rfl, rfl, rfl, ?_⟩
  simp [provStats]

theorem c9_stats_fields_witness :
    getEntryStats (set S0 [1, 2] [3, 4, 5]) (S0.hashOf [1, 2]) =
      some (provStats [1, 2] [3, 4, 5] S0.mClock) ∧
    (provStats [1, 2] [3, 4, 5] S0.mClock).fileSize -
      (provStats [1, 2] [3, 4, 5] S0.mClock).valueSize - multifileHeaderSize =
      [1, 2].length :=
  ⟨(c9_stats_fields S0 [1, 2] [3, 4, 5] (by decide) (by decide) (by decide)
      (by decide)).1,
    (c9_stats_fields S0 [1, 2] [3, 4, 5] (by decide) (by decide) (by decide)
      (by decide)).2.2.2.2⟩

/-- C5: `applyLRU(limit)` stops as soon as the total is within the limit
(and an already-within-limit state is returned unchanged); each step it
selects an indexed entry of minimal `accessTime` — ties broken
deterministically by smaller hash (`lruLe`) — and the end result is
downward closed in that order: every evicted entry is strictly earlier
(`lruLt`) than every surviving one, so entries accessed in order A, B, C
are evicted A before B before C. -/
theorem c5_lru_eviction_order (st : CacheState) (limit : Nat) (hi : Inv st) :
    ((applyLRU st limit).mTotalCacheSize ≤ limit) ∧
    (st.mTotalCacheSize ≤ limit → applyLRU st limit = st) ∧
    (∀ m, selectVictim st = some m →
      ∃ s, (m, s) ∈ st.mEntryStats ∧ ∀ p ∈ st.mEntryStats, lruLe (m, s) p) ∧
    (∀ hE hS sE sS, hE ∈ st.mEntries →
      hE ∉ (applyLRU st limit).mEntries →
      hS ∈ (applyLRU st limit).mEntries →
      alookup st.mEntryStats hE = some sE →
      alookup st.mEntryStats hS = some sS →
      lruLt (hE, sE) (hS, sS)) := by
  refine ⟨applyLRU_bound st limit hi, ?_, ?_, ?_⟩
  · intro hle
    unfold applyLRU
    cases hfl : st.mEntryStats.length with
    | zero => rfl
    | succ n => rw [applyLRUAux, if_pos hle]
  · intro m hm
    exact selectVictim_spec st m hm
  · intro hE hS sE sS h1 h2 h3 h4 h5
    exact applyLRUAux_closure limit st.mEntryStats.length st hi
      hE hS sE sS h1 h2 h3 h4 h5

theorem c5_lru_eviction_order_witness :
    Inv S1 ∧ (applyLRU S1 0).mTotalCacheSize ≤ 0 :=
  ⟨by decide, (c5_lru_eviction_order S1 0 (by decide)).1⟩

/-- C4: after any sequence of `set` calls from a fresh cache, a
`trimCache limit` leaves the total cache size at most `limit`; and
`trimCache` is exactly `waitForWorkComplete` (drain the write pipeline)
followed by `applyLRU` at that limit. -/
theorem c4_capacity_bound (hashOf : List Nat → Nat) (maxTotal maxHot : Nat)
    (dir : String) (maxK maxV hotN : Nat)
    (calls : List (List Nat × List Nat)) (limit : Nat) :
    (trimCache (calls.foldl (fun s kv => set s kv.1 kv.2)
        (initState hashOf maxTotal maxHot dir maxK maxV hotN))
      limit).mTotalCacheSize ≤ limit ∧
    (∀ st : CacheState, trimCache st limit =
      applyLRU (waitForWorkComplete st) limit) := by
  constructor
  · have hinv : Inv (calls.foldl (fun s kv => set s kv.1 kv.2)
        (initState hashOf maxTotal maxHot dir maxK maxV hotN)) :=
      inv_foldl_set calls _ (inv_initState hashOf maxTotal maxHot dir maxK maxV hotN)
    exact applyLRU_bound _ limit (inv_waitForWorkComplete _ hinv)
  · intro st
    rfl

/-- C8: in every state reachable from a fresh cache by any sequence of
`set`, `get`, `trackEntry`, `removeEntry`, `applyLRU` and `trimCache`
operations, `mTotalCacheSize` equals the sum of `fileSize` over the
indexed entries, and every hash in the index set `mEntries` has exactly
one record in `mEntryStats`. -/
theorem c8_index_consistency (hashOf : List Nat → Nat) (maxTotal maxHot : Nat)
    (dir : String) (maxK maxV hotN : Nat) (ops : List CacheOp) :
    (runOps (initState hashOf maxTotal maxHot dir maxK maxV hotN)
        ops).mTotalCacheSize =
      sumFS (runOps (initState hashOf maxTotal maxHot dir maxK maxV hotN)
        ops).mEntryStats ∧
    ∀ h ∈ (runOps (initState hashOf maxTotal maxHot dir maxK maxV hotN)
        ops).mEntries,
      (akeys (runOps (initState hashOf maxTotal maxHot dir maxK maxV hotN)
        ops).mEntryStats).count h = 1 := by
  have hinv := inv_runOps _ ops
    (inv_initState hashOf maxTotal maxHot dir maxK maxV hotN)
  refine ⟨hinv.2.2.2.2, fun h hm => ?_⟩
  exact List.count_eq_one_of_mem hinv.2.1 (hinv.2.2.1 h hm)


/-! ### Further auxiliary lemmas for the claim theorems -/

theorem set_mMaxKeySize (st : CacheState) (key value : List Nat)
    (hkv : ¬ (key.length > st.mMaxKeySize ∨ value.length > st.mMaxValueSize)) :
    (set st key value).mMaxKeySize = st.mMaxKeySize := by
  rw [set_accepted_eq st key value hkv]
  split
  · exact ((applyLRUAux_frame _ _ _).2.2.2.1).trans (setAccepted_config st key value).1
  · exact (setAccepted_config st key value).1

theorem set_mMaxValueSize (st : CacheState) (key value : List Nat)
    (hkv : ¬ (key.length > st.mMaxKeySize ∨ value.length > st.mMaxValueSize)) :
    (set st key value).mMaxValueSize = st.mMaxValueSize := by
  rw [set_accepted_eq st key value hkv]
  split
  · exact ((applyLRUAux_frame _ _ _).2.2.2.2.1).trans (setAccepted_config st key value).2.1
  · exact (setAccepted_config st key value).2.1

theorem touchEntry_hashOf (st : CacheState) (h : Nat) :
    (touchEntry st h).hashOf = st.hashOf := by
  unfold touchEntry
  cases alookup st.mEntryStats h <;> rfl

theorem processTask_hashOf (st : CacheState) (t : DeferredTask) :
    (processTask st t).hashOf = st.hashOf := by
  unfold processTask
  cases t.mCommand with
  | Invalid => rfl
  | Exit => rfl
  | WriteToDisk =>
    cases t.mFullPath with
    | none => rfl
    | some q =>
      cases t.mBuffer with
      | none => rfl
      | some b => simp only [trackEntry_hashOf]

theorem processTask_mem_mono (st : CacheState) (t : DeferredTask) (h : Nat)
    (hm : h ∈ st.mEntries) : h ∈ (processTask st t).mEntries := by
  unfold processTask
  cases t.mCommand with
  | Invalid => exact hm
  | Exit => exact hm
  | WriteToDisk =>
    cases t.mFullPath with
    | none => exact hm
    | some q =>
      cases t.mBuffer with
      | none => exact hm
      | some b => exact trackEntry_mem_mono _ _ _ _ _ h hm

theorem runWorkerAux_through (pre post : List DeferredTask) (B : CacheState)
    (hne : ∀ t ∈ pre, t.mCommand ≠ TaskCommand.Exit) :
    runWorkerAux (pre ++ (DeferredTask.ofCommand TaskCommand.Exit) :: post) B =
      { drainTasks pre B with mTasks := post } := by
  induction pre generalizing B with
  | nil => rfl
  | cons t pre2 ih =>
    rw [List.cons_append, runWorkerAux]
    have hc := hne t (List.mem_cons_self _ _)
    cases hcc : t.mCommand with
    | Exit => exact absurd hcc hc
    | WriteToDisk =>
      exact ih (processTask B t) (fun x hx => hne x (List.mem_cons_of_mem _ hx))
    | Invalid =>
      exact ih (processTask B t) (fun x hx => hne x (List.mem_cons_of_mem _ hx))


/-- C6: on a verified match with destination capacity strictly smaller
than the stored `valueSize`, `get` writes no bytes, returns the required
`valueSize`, and still refreshes the entry's `accessTime` (a hit); a
follow-up `get` with capacity equal to the stored `valueSize` returns
the full value. -/
theorem c6_size_probe (st : CacheState) (key : List Nat) (cap : Nat)
    (buf : EntryFile) (s0 : MultifileEntryStats)
    (hmem : st.hashOf key ∈ st.mEntries)
    (hlb : lookupBuffer st (st.hashOf key) = some buf)
    (hks : buf.header.keySize = key.length) (hkb : buf.keyBytes = key)
    (hst : alookup st.mEntryStats (st.hashOf key) = some s0)
    (hcap : cap < buf.header.valueSize) :
    get st key cap = (touchEntry st (st.hashOf key),
      { retVal := buf.header.valueSize, written := none }) ∧
    alookup (get st key cap).1.mEntryStats (st.hashOf key) =
      some { s0 with accessTime := st.mClock } ∧
    (get (get st key cap).1 key buf.header.valueSize).2 =
      { retVal := buf.header.valueSize, written := some buf.valueBytes } := by
  have h1 := get_hit_probe st key cap buf hmem hlb hks hkb hcap
  have hh : (touchEntry st (st.hashOf key)).hashOf = st.hashOf :=
    touchEntry_hashOf st _
  refine ⟨h1, ?_, ?_⟩
  · rw [h1]
    exact touchEntry_alookup_self st _ s0 hst
  · rw [h1]
    have hmem2 : (touchEntry st (st.hashOf key)).hashOf key ∈
        (touchEntry st (st.hashOf key)).mEntries := by
      rw [hh, touchEntry_mEntries]
      exact hmem
    have hlb2 : lookupBuffer (touchEntry st (st.hashOf key))
        ((touchEntry st (st.hashOf key)).hashOf key) = some buf := by
      rw [hh]
      rw [lookupBuffer_eq_of_fields st (touchEntry st (st.hashOf key))
        (st.hashOf key) (touchEntry_mHotCache st _)
        (touchEntry_mDeferredWrites st _) (touchEntry_mDisk st _)]
      exact hlb
    have h2 := get_hit_full (touchEntry st (st.hashOf key)) key
      buf.header.valueSize buf hmem2 hlb2 hks hkb (lt_irrefl _)
    rw [h2]

theorem c6_size_probe_witness :
    get S2 [1] 2 = (touchEntry S2 (S2.hashOf [1]),
      { retVal := (bufferFor [1] [7, 8, 9]).header.valueSize,
        written := none }) ∧
    alookup (get S2 [1] 2).1.mEntryStats (S2.hashOf [1]) =
      some { provStats [1] [7, 8, 9] S0.mClock with accessTime := S2.mClock } ∧
    (get (get S2 [1] 2).1 [1] (bufferFor [1] [7, 8, 9]).header.valueSize).2 =
      { retVal := (bufferFor [1] [7, 8, 9]).header.valueSize,
        written := some (bufferFor [1] [7, 8, 9]).valueBytes } :=
  c6_size_probe S2 [1] 2 (bufferFor [1] [7, 8, 9])
    (provStats [1] [7, 8, 9] S0.mClock) (by decide) (by decide) (by decide)
    (by decide) (by decide) (by decide)

/-- C2: if two distinct keys collide on the same hash, then after
`set k1 v1` followed by an accepted `set k2 v2`, a `get` for `k1` is
reported as a miss — the stored-key/query-key byte mismatch on the read
path never returns the other key's value. -/
theorem c2_collision_safety (st : CacheState) (k1 v1 k2 v2 : List Nat)
    (cap : Nat) (hcol : st.hashOf k1 = st.hashOf k2) (hne : k2 ≠ k1)
    (hkv1 : ¬ (k1.length > st.mMaxKeySize ∨ v1.length > st.mMaxValueSize))
    (hkv2 : ¬ (k2.length > st.mMaxKeySize ∨ v2.length > st.mMaxValueSize)) :
    (get (set (set st k1 v1) k2 v2) k1 cap).2 =
      { retVal := 0, written := none } := by
  have hkv2a : ¬ (k2.length > (set st k1 v1).mMaxKeySize ∨
      v2.length > (set st k1 v1).mMaxValueSize) := by
    rw [set_mMaxKeySize st k1 v1 hkv1, set_mMaxValueSize st k1 v1 hkv1]
    exact hkv2
  have hho1 : (set st k1 v1).hashOf = st.hashOf := set_hashOf st k1 v1 hkv1
  have hho2 : (set (set st k1 v1) k2 v2).hashOf = st.hashOf :=
    (set_hashOf (set st k1 v1) k2 v2 hkv2a).trans hho1
  have hhash : (set (set st k1 v1) k2 v2).hashOf k1 =
      (set st k1 v1).hashOf k2 := by
    rw [hho2, hho1, hcol]
  by_cases hmem : (set st k1 v1).hashOf k2 ∈
      (set (set st k1 v1) k2 v2).mEntries
  · have hlb := set_lookupBuffer (set st k1 v1) k2 v2 hkv2a hmem
    have hmis : ¬ ((bufferFor k2 v2).header.keySize = k1.length ∧
        (bufferFor k2 v2).keyBytes = k1) := by
      rintro ⟨_, hb⟩
      exact hne hb
    have := get_miss_mismatch (set (set st k1 v1) k2 v2) k1 cap
      (bufferFor k2 v2) (by rw [hhash]; exact hmem) (by rw [hhash]; exact hlb)
      hmis
    rw [this]
  · have := get_miss_not_mem (set (set st k1 v1) k2 v2) k1 cap
      (by rw [hhash]; exact hmem)
    rw [this]

theorem c2_collision_safety_witness :
    (get (set (set S0 [1, 2] [5]) [2, 1] [6]) [1, 2] 9).2 =
      { retVal := 0, written := none } :=
  c2_collision_safety S0 [1, 2] [5] [2, 1] [6] 9 (by decide) (by decide)
    (by decide) (by decide)


/-- C3: `finish` drains the write pipeline — after it returns the task
queue is empty and every queued `WriteToDisk` has been applied to the
file store in FIFO order (the last queued write for each path is what
the disk holds; paths without a queued write are untouched) — and the
worker loop processes an `Exit` task only after every previously queued
task, leaving exactly the tasks queued after the `Exit` unprocessed, so
shutdown never drops a queued write. -/
theorem c3_drain_on_finish (st : CacheState) :
    (finish st).mTasks = [] ∧
    (∀ p b, lastWriteFor st.mTasks p = some b →
      alookup (finish st).mDisk p = some b) ∧
    (∀ p, lastWriteFor st.mTasks p = none →
      alookup (finish st).mDisk p = alookup st.mDisk p) ∧
    (∀ pre post, st.mTasks = pre ++
        (DeferredTask.ofCommand TaskCommand.Exit) :: post →
      (∀ t ∈ pre, t.mCommand ≠ TaskCommand.Exit) →
      runWorker st = { waitForWorkComplete { st with mTasks := pre } with
        mTasks := post }) := by
  refine ⟨?_, ?_, ?_, ?_⟩
  · unfold finish waitForWorkComplete
    rw [drainTasks_mTasks]
  · intro p b hb
    unfold finish waitForWorkComplete
    rw [drainTasks_disk, hb]
  · intro p hb
    unfold finish waitForWorkComplete
    rw [drainTasks_disk, hb]
  · intro pre post hpre hne
    unfold runWorker waitForWorkComplete
    rw [hpre]
    dsimp only
    exact runWorkerAux_through pre post _ hne

theorem c3_drain_on_finish_witness :
    (finish S2).mTasks = [] ∧
    alookup (finish S2).mDisk (S0.hashOf [1]) =
      some (bufferFor [1] [7, 8, 9]) :=
  ⟨(c3_drain_on_finish S2).1,
    (c3_drain_on_finish S2).2.1 (S0.hashOf [1]) (bufferFor [1] [7, 8, 9])
      (by decide)⟩

/-- C1: from a quiescent cache (pipeline drained), an accepted
`set key value` whose entry fits the configured total budget followed by
`get key` with capacity at least `value.length` returns exactly the
stored value bytes and reports `value.length` — whether `finish` is
called between the two calls or not. -/
theorem c1_round_trip (st : CacheState) (key value : List Nat) (cap : Nat)
    (hi : Inv st) (hck : ClockInv st)
    (hq1 : st.mTasks = []) (hq2 : st.mDeferredWrites = [])
    (hkv : ¬ (key.length > st.mMaxKeySize ∨ value.length > st.mMaxValueSize))
    (hfit : multifileHeaderSize + key.length + value.length ≤ st.mMaxTotalSize)
    (hcap : value.length ≤ cap) :
    (get (set st key value) key cap).2 =
      { retVal := value.length, written := some value } ∧
    (get (finish (set st key value)) key cap).2 =
      { retVal := value.length, written := some value } := by
  have hmem := set_survives st key value hi hck hkv hfit
  have hlb := set_lookupBuffer st key value hkv hmem
  have hho : (set st key value).hashOf = st.hashOf := set_hashOf st key value hkv
  have hcap' : ¬ cap < (bufferFor key value).header.valueSize := by
    simp [bufferFor]
    omega
  constructor
  · have h1 := get_hit_full (set st key value) key cap (bufferFor key value)
      (by rw [hho]; exact hmem) (by rw [hho]; exact hlb) rfl rfl hcap'
    rw [h1]
    rfl
  · have hTasks : (set st key value).mTasks = [writeTaskFor st key value] := by
      rw [set_mTasks st key value hkv, hq1]
      rfl
    have hPend : (set st key value).mDeferredWrites =
        [(st.hashOf key, bufferFor key value)] := by
      rw [set_mDeferredWrites st key value hkv, hq2]
    have hF : finish (set st key value) =
        processTask { set st key value with mTasks := [] }
          (writeTaskFor st key value) := by
      unfold finish waitForWorkComplete
      rw [hTasks]
      rfl
    have hFhash : (finish (set st key value)).hashOf = st.hashOf := by
      rw [hF, processTask_hashOf]
      exact hho
    have hFmem : st.hashOf key ∈ (finish (set st key value)).mEntries := by
      rw [hF]
      exact processTask_mem_mono _ _ _ hmem
    have hFhot : (finish (set st key value)).mHotCache =
        (set st key value).mHotCache := by
      rw [hF, processTask_mHotCache]
    have hFpend : (finish (set st key value)).mDeferredWrites = [] := by
      rw [hF, processTask_write_mDeferredWrites _ _ (st.hashOf key)
        (bufferFor key value) rfl rfl rfl]
      rw [show ({ set st key value with mTasks := [] } :
        CacheState).mDeferredWrites = (set st key value).mDeferredWrites
        from rfl, hPend]
      simp [erasePair]
    have hFdisk : alookup (finish (set st key value)).mDisk (st.hashOf key) =
        some (bufferFor key value) := by
      rw [hF, processTask_write_mDisk _ _ (st.hashOf key)
        (bufferFor key value) rfl rfl rfl]
      exact alookup_aupdate_self _ _ _
    have hFlb : lookupBuffer (finish (set st key value)) (st.hashOf key) =
        some (bufferFor key value) := by
      unfold lookupBuffer
      rw [hFhot]
      rcases (set_entries_cases st key value hkv hmem).2 with h2 | h2
      · rw [h2]
      · rw [h2, hFpend]
        rw [show alookup ([] : List (Nat × EntryFile)) (st.hashOf key) = none
          from rfl]
        exact hFdisk
    have h2 := get_hit_full (finish (set st key value)) key cap
      (bufferFor key value) (by rw [hFhash]; exact hFmem)
      (by rw [hFhash]; exact hFlb) rfl rfl hcap'
    rw [h2]
    rfl

theorem c1_round_trip_witness :
    (get (set S0 [1, 2] [3, 4]) [1, 2] 2).2 =
      { retVal := 2, written := some [3, 4] } ∧
    (get (finish (set S0 [1, 2] [3, 4])) [1, 2] 2).2 =
      { retVal := 2, written := some [3, 4] } :=
  c1_round_trip S0 [1, 2] [3, 4] 2 (by decide) (by decide) (by decide)
    (by decide) (by decide) (by decide) (by decide)

end MultifileBlobCache
